import Mathlib

/-!
Verification of the isomodder repository against its natural-language
specification.  The Python sources are shallowly embedded: text is modelled
as `List Char`, byte streams as `List Char` of their decoded content, the
MD5 accumulator as an abstract digest function parameter, and the filesystem
and ISO image as explicit record states.  Each embedded definition mirrors
one Python function of the repository (named in its doc comment).
-/

namespace Isomodder

/-- Text, modelled as a list of characters (Python `str`). -/
abbrev Str := List Char

/-- Python whitespace test: the characters for which `str.isspace` holds and
on which `str.strip()` / `str.split()` (no separator) split.  Mirrors the
CPython definition (ASCII whitespace, the C1 controls 28-31, NEL, NBSP and
the Unicode space separators). -/
def pySpace (c : Char) : Bool :=
  c.toNat = 9 || c.toNat = 10 || c.toNat = 11 || c.toNat = 12 || c.toNat = 13 ||
  c.toNat = 28 || c.toNat = 29 || c.toNat = 30 || c.toNat = 31 || c.toNat = 32 ||
  c.toNat = 133 || c.toNat = 160 || c.toNat = 5760 ||
  (8192 ≤ c.toNat && c.toNat ≤ 8202) || c.toNat = 8232 || c.toNat = 8233 ||
  c.toNat = 8239 || c.toNat = 8287 || c.toNat = 12288

/-- Python `s.strip()`: remove leading and trailing whitespace. -/
def pyStrip (s : Str) : Str :=
  ((s.dropWhile pySpace).reverse.dropWhile pySpace).reverse

/-- Python `s.split(maxsplit=1)` (no separator argument): discard leading
whitespace, split at the first whitespace run, keep the remainder intact. -/
def pySplit1 (s : Str) : List Str :=
  let t := s.dropWhile pySpace
  match t.takeWhile (fun c => !(pySpace c)) with
  | [] => []
  | tok =>
      let rest := (t.dropWhile (fun c => !(pySpace c))).dropWhile pySpace
      if rest = [] then [tok] else [tok, rest]

/-- Iterating a text stream line by line (Python `for line in fp`): each
yielded line keeps its trailing newline; a final segment without a newline
is yielded as well when it is non-empty. -/
def fileLines (s : Str) : List Str :=
  match s with
  | [] => []
  | c :: rest =>
      if c = '\n' then ['\n'] :: fileLines rest
      else
        match fileLines rest with
        | [] => [[c]]
        | l :: ls => (c :: l) :: ls

/-- `HashFileRecord` from `_hashing.py`: a manifest entry. -/
structure HashFileRecord where
  path : Str
  digest : Str
deriving DecidableEq, Repr

/-- The error signalled on a malformed manifest line (the spec's
`FormatError`; in the source an `IndexError` escaping `parse_hash_file`). -/
structure FormatError where
  line : Str
deriving DecidableEq, Repr

/-- One loop iteration of `parse_hash_file` (`_hashing.py`):
`parts = line.strip().split(maxsplit=1)` followed by
`HashFileRecord(parts[1].lstrip("*"), parts[0])`. -/
def parseHashLine (line : Str) : Except FormatError HashFileRecord :=
  match pySplit1 (pyStrip line) with
  | d :: p :: _ => .ok ⟨p.dropWhile (fun c => c = '*'), d⟩
  | _ => .error ⟨line⟩

/-- Sequentially map a fallible step over a list, stopping at the first
error (the semantics of a Python loop over a generator). -/
def mapExcept {α β ε : Type} (f : α → Except ε β) : List α → Except ε (List β)
  | [] => .ok []
  | a :: l =>
      match f a with
      | .error e => .error e
      | .ok b =>
          match mapExcept f l with
          | .error e => .error e
          | .ok bs => .ok (b :: bs)

/-- `parse_hash_file` (`_hashing.py`), consumed to the end: one record per
line, failing at the first malformed line. -/
def parse_hash_file (text : Str) : Except FormatError (List HashFileRecord) :=
  mapExcept parseHashLine (fileLines text)

/-- `write_hash_file` (`_hashing.py`): one line
`<digest><two spaces><path><newline>` per record. -/
def write_hash_file (records : List HashFileRecord) : Str :=
  (records.map (fun r => r.digest ++ [' ', ' '] ++ r.path ++ ['\n'])).flatten

/-- `canonical_hash_file_path` (`_hashing.py`): prefix the path with `.`. -/
def canonical_hash_file_path (path : Str) : Str := '.' :: path

/-- `create_hash_file_record` (`_hashing.py`); the MD5 accumulator of
`compute_digest` is abstracted as the digest function `md5`. -/
def create_hash_file_record (md5 : Str → Str) (content : Str) (path : Str) :
    HashFileRecord :=
  ⟨canonical_hash_file_path path, md5 content⟩

/-! ### Boot menu text transformer (`_builder.py`, `modify_text`) -/

/-- Scanner for `re.sub` with a literal pattern: leftmost, non-overlapping
matches, each replaced by `rep`; `fuel` bounds the recursion and is always
called with at least the length of the text. -/
def subLiteralGo (pat rep : Str) : Nat → Str → Str
  | _, [] => []
  | 0, s => s
  | fuel + 1, c :: rest =>
      if pat.isPrefixOf (c :: rest) then
        rep ++ subLiteralGo pat rep fuel (List.drop pat.length (c :: rest))
      else
        c :: subLiteralGo pat rep fuel rest

/-- `re.sub(pat, rep, text)` for a literal (non-empty) pattern `pat`. -/
def subLiteral (pat rep text : Str) : Str :=
  subLiteralGo pat rep text.length text

/-- Index of the last newline in a whitespace run, if any. -/
def lastNewlineIdx (w : Str) : Option Nat :=
  match w.reverse.findIdx? (fun c => c = '\n') with
  | some k => some (w.length - 1 - k)
  | none => none

/-- Length of the leftmost match of the regex `---\s*$` (`re.MULTILINE`) at
the head of `s`, if it matches there: the three dashes plus the greedy
whitespace run truncated so that the match ends at the end of the string or
just before a newline. -/
def termMatchLen (s : Str) : Option Nat :=
  if ['-', '-', '-'].isPrefixOf s then
    let rest := List.drop 3 s
    let w := rest.takeWhile pySpace
    let after := rest.dropWhile pySpace
    if after = [] then some (3 + w.length)
    else
      match lastNewlineIdx w with
      | some j => some (3 + j)
      | none => none
  else none

/-- Scanner for `re.sub(r"---\s*$", rep, text, flags=re.MULTILINE)`:
leftmost, non-overlapping matches of the terminator pattern, each replaced
by `rep`.  `fuel` is always called with at least the length of the text. -/
def subTermGo (rep : Str) : Nat → Str → Str
  | _, [] => []
  | 0, s => s
  | fuel + 1, c :: rest =>
      match termMatchLen (c :: rest) with
      | some n => rep ++ subTermGo rep fuel (List.drop n (c :: rest))
      | none => c :: subTermGo rep fuel rest

/-- `re.sub(r"---\s*$", rep, text, flags=re.MULTILINE)`. -/
def subTerm (rep text : Str) : Str :=
  subTermGo rep text.length text

/-- The product-name anchor searched by `modify_text`. -/
def anchor : Str := "Install Ubuntu Server".toList

/-- The stamp chosen by `modify_text`: a warning when the boot mode is
unsupported (`if unsupported_mode`, so an empty mode string is falsy),
otherwise the parenthesised grub entry stamp. -/
def stampText (grubStamp : Str) (unsupportedMode : Option Str) : Str :=
  match unsupportedMode with
  | some m =>
      if m.isEmpty then '(' :: grubStamp ++ [')']
      else "*AutoInstall with ".toList ++ m ++ " boot not supported by this ISO*".toList
  | none => '(' :: grubStamp ++ [')']

/-- The replacement text for the terminator match in `modify_text`:
`f"{autoinstall} ds=nocloud{escape};s=/cdrom/nocloud/ ---"`. -/
def termReplacement (prompt escapeSemicolon : Bool) : Str :=
  (if prompt then [] else "autoinstall".toList) ++ " ds=nocloud".toList ++
    (if escapeSemicolon then ['\\'] else []) ++ ";s=/cdrom/nocloud/ ---".toList

/-- `modify_text` (`_builder.py`, local to `_update_grub`): stamp every
occurrence of the product-name anchor, then rewrite every boot line
terminator. -/
def modify_text (grubStamp : Str) (prompt : Bool) (text : Str)
    (unsupportedMode : Option Str) (escapeSemicolon : Bool) : Str :=
  let stamp := stampText grubStamp unsupportedMode
  let t1 := subLiteral anchor (anchor ++ ' ' :: stamp) text
  subTerm (termReplacement prompt escapeSemicolon) t1

/-! ### Source acquisition pipeline (`_fetcher.py`) -/

/-- A file on the working directory's filesystem: modification time and
content. -/
structure FsFile where
  mtime : Nat
  content : Str
deriving DecidableEq, Repr

/-- The filesystem state observed by `BaseIsoFetcher`: the image file, the
checksum-manifest file, and the validation marker (whose content is never
read, only its modification time). -/
structure FsState where
  iso : Option FsFile
  checksum : Option FsFile
  marker : Option Nat
deriving DecidableEq, Repr

/-- Observable actions of a `fetch` run, in program order.  The two
downloads are submitted to the worker pool in this order; their completion
is awaited before validation. -/
inductive FetchEv
  | deleteChecksum
  | deleteMarker
  | deleteIso
  | downloadIso
  | downloadChecksum
  | touchMarker
deriving DecidableEq, Repr

/-- Errors aborting `fetch`.  Both validation-failure paths of
`BaseIsoFetcher._validate` interpolate `self.iso_name` into an f-string,
but the attribute is spelled `self._iso_name` (`_fetcher.py` lines 130 and
136), so each path crashes with an `AttributeError` before the
`IsoModderFatalException` the spec calls a `ValidationError` can be
constructed; `attributeError` models that crash.  A malformed manifest
line raises before the lookup completes (`formatError`). -/
inductive FetchErr
  | attributeError
  | formatError (e : FormatError)
deriving DecidableEq, Repr

/-- Decidable equality for `Except`, needed to evaluate concrete fetch
outcomes. -/
instance {ε α : Type} [DecidableEq ε] [DecidableEq α] :
    DecidableEq (Except ε α)
  | .ok a, .ok b =>
      if h : a = b then .isTrue (by rw [h])
      else .isFalse (by intro hh; cases hh; exact h rfl)
  | .ok _, .error _ => .isFalse (by intro h; cases h)
  | .error _, .ok _ => .isFalse (by intro h; cases h)
  | .error a, .error b =>
      if h : a = b then .isTrue (by rw [h])
      else .isFalse (by intro hh; cases hh; exact h rfl)

/-- The outcome of a `fetch` run: the returned image path (or error), the
final filesystem state, and the event trace. -/
structure FetchOutcome where
  result : Except FetchErr Str
  state : FsState
  events : List FetchEv
deriving DecidableEq, Repr

/-- What the network serves for the two transfers of a run. -/
structure Network where
  isoContent : Str
  checksumContent : Str
deriving DecidableEq, Repr

/-- `BaseIsoFetcher._is_validated`: marker exists, image exists, and the
marker's mtime is not older than the image's. -/
def is_validated (s : FsState) : Bool :=
  match s.marker, s.iso with
  | some m, some f => decide (f.mtime ≤ m)
  | _, _ => false

/-- `BaseIsoFetcher._need_download`: the image or the checksum file is
missing. -/
def need_download (s : FsState) : Bool :=
  !s.iso.isSome || !s.checksum.isSome

/-- `BaseIsoFetcher._clear`: `delete_if_exist` on the checksum file, the
validation marker and the image, in that order. -/
def clear (s : FsState) : FsState × List FetchEv :=
  (⟨none, none, none⟩,
    (if s.checksum.isSome then [FetchEv.deleteChecksum] else []) ++
    (if s.marker.isSome then [FetchEv.deleteMarker] else []) ++
    (if s.iso.isSome then [FetchEv.deleteIso] else []))

/-- The manifest lookup inside `BaseIsoFetcher._validate`:
`next(h.digest for h in parse_hash_file(checksum_file) if h.path == iso_name)`.
The generator is consumed lazily, so a malformed line before the matching
record raises.  On `StopIteration` (no matching record) the handler builds
`f"Could not find the digest for {self.iso_name} ..."`, and evaluating the
misspelled `self.iso_name` raises `AttributeError` before the intended
"could not find the digest" fatal error is constructed. -/
def findDigest (isoName : Str) : List Str → Except FetchErr Str
  | [] => .error .attributeError
  | line :: rest =>
      match parseHashLine line with
      | .error e => .error (.formatError e)
      | .ok r => if r.path = isoName then .ok r.digest else findDigest isoName rest

/-- `BaseIsoFetcher.fetch`: return the cached image if validated; otherwise
clear stale files when both image and checksum are present, download both
files, and validate the image digest against the manifest entry, touching
the marker on success.  On a digest mismatch `_validate` calls
`logging.error(f"For {self.iso_name}, ...")`, whose argument evaluation
raises `AttributeError` before `return False` is reached, so the
"ISO validation failed. Re-run ..." exception in `fetch` is unreachable
dead code.  The MD5 accumulator is the abstract `md5`; `now` is the
wall-clock time stamped onto the files written by this run; the returned
path is abbreviated to the image filename. -/
def fetch (md5 : Str → Str) (isoName : Str) (net : Network) (now : Nat)
    (s : FsState) : FetchOutcome :=
  if is_validated s then ⟨.ok isoName, s, []⟩
  else
    let cleared := if !need_download s then clear s else (s, [])
    let s2 : FsState :=
      { cleared.1 with iso := some ⟨now, net.isoContent⟩,
                       checksum := some ⟨now, net.checksumContent⟩ }
    let evs := cleared.2 ++ [FetchEv.downloadIso, FetchEv.downloadChecksum]
    match findDigest isoName (fileLines net.checksumContent) with
    | .error e => ⟨.error e, s2, evs⟩
    | .ok actual =>
        if md5 net.isoContent = actual then
          ⟨.ok isoName, { s2 with marker := some now }, evs ++ [FetchEv.touchMarker]⟩
        else
          ⟨.error .attributeError, s2, evs⟩

/-! ### Tree staging into the image (`_iso.py`, `_builder.py`) -/

/-- Kind of a source filesystem entry met while staging a tree
(`Path.is_dir` / `Path.is_file`, with the stat mode for regular files). -/
inductive FsEntryKind
  | file (mode : Nat)
  | dir
  | other
deriving DecidableEq, Repr

/-- A source entry yielded by `source_path.rglob("*")`, identified by its
path relative to the tree root. -/
structure FsEntry where
  relpath : Str
  kind : FsEntryKind
deriving DecidableEq, Repr

/-- Mutations issued against the ISO image handle. -/
inductive IsoOp
  | mkdir (path : Str)
  | addFile (path : Str) (fileMode : Option Nat)
deriving DecidableEq, Repr

/-- The error raised when a source entry is neither a regular file nor a
directory (the spec's `UnsupportedEntryError`; in the source
`Exception("Unhandle path type encountered during copy.")`). -/
inductive StagingError
  | unsupportedEntry
deriving DecidableEq, Repr

/-- `stat.S_IXUSR`: the user-executable permission bit. -/
def S_IXUSR : Nat := 64

/-- `IsoFile.copy_file` (`_iso.py`): the image entry for a regular source
file; `file_mode = 0o0100555 if source_stat & stat.S_IXUSR else None`. -/
def copy_file (sourceMode : Nat) (path : Str) : IsoOp :=
  .addFile path (if sourceMode &&& S_IXUSR ≠ 0 then some 0o100555 else none)

/-- `copy_directory` (`_iso.py`): create the target directory, then mirror
every entry of the source tree; directories become directories, regular
files are copied with `copy_file`, anything else raises. -/
def copy_directory (dest : Str) (entries : List FsEntry) :
    Except StagingError (List IsoOp) :=
  match mapExcept (fun e =>
      match e.kind with
      | .dir => Except.ok (IsoOp.mkdir (dest ++ e.relpath))
      | .file m => Except.ok (copy_file m (dest ++ e.relpath))
      | .other => Except.error StagingError.unsupportedEntry) entries with
  | .error e => .error e
  | .ok ops => .ok (IsoOp.mkdir dest :: ops)

/-- A member of the tar archive handed to `add_from_tar`. -/
structure TarInfo where
  name : Str
  isDir : Bool
  mode : Nat
  content : Str
deriving DecidableEq, Repr

/-- `AutoInstallBuilder.add_from_tar` (`_builder.py`): create the target
directory, then for every member other than `"."`: directories become
directories; other members are hashed into a new manifest record and
written with `file_mode = 0o0100555 if info.mode & stat.S_IXUSR else None`.
Returns the image operations and the accumulated new hash records. -/
def add_from_tar (md5 : Str → Str) (isoPath : Str) (infos : List TarInfo) :
    List IsoOp × List HashFileRecord :=
  let step := fun (info : TarInfo) =>
    if info.isDir then (IsoOp.mkdir (isoPath ++ info.name), none)
    else
      ((IsoOp.addFile (isoPath ++ info.name)
          (if info.mode &&& S_IXUSR ≠ 0 then some 0o100555 else none)),
        some (create_hash_file_record md5 info.content (isoPath ++ info.name)))
  let steps := (infos.filter (fun i => i.name ≠ ['.'])).map step
  (IsoOp.mkdir isoPath :: steps.map Prod.fst, steps.filterMap Prod.snd)

/-! ### Image mutation pipeline (`_builder.py`, `AutoInstallBuilder`) -/

/-- The image contents touched by a build: the two boot-menu files, the
top-level manifest, and the injected configuration payload. -/
structure IsoState where
  grub : Option Str
  isolinux : Option Str
  md5sum : Option Str
  nocloudDir : Bool
  userData : Option Str
  metaData : Option Str
deriving DecidableEq, Repr

/-- Errors aborting a build: a missing image file (`NotFoundError`), an
occupied path on create (`AlreadyExistsError`), a malformed manifest line
(`FormatError`), or the failed `assert self._grub_hash is not None`. -/
inductive BuildError
  | notFound
  | alreadyExists
  | formatError (e : FormatError)
  | assertionFailed
deriving DecidableEq, Repr

/-- `AutoInstallBuilder.grub_path` as the manifest's canonical string
(`f".{self.grub_path}"`). -/
def grub_path : Str := "/boot/grub/grub.cfg".toList

/-- `AutoInstallBuilder.isolinux_path`. -/
def isolinux_path : Str := "/isolinux/txt.cfg".toList

/-- Constructor parameters of `AutoInstallBuilder`. -/
structure BuilderConfig where
  autoinstall_yaml : Str
  grub_entry_stamp : Str
  autoinstall_prompt : Bool
  supports_mbr : Bool
  supports_efi : Bool
deriving DecidableEq, Repr

/-- The builder state mutated across phases: `self._grub_hash`,
initialised to `None` in `__init__`. -/
structure BuilderState where
  grub_hash : Option HashFileRecord
deriving DecidableEq, Repr

/-- `AutoInstallBuilder._add_autoinstall`: create `/nocloud` and write the
`user-data` and `meta-data` files (new files; an occupied path raises). -/
def add_autoinstall (yaml : Str) (iso : IsoState) : Except BuildError IsoState :=
  if iso.nocloudDir then .error .alreadyExists
  else if iso.userData.isSome then .error .alreadyExists
  else if iso.metaData.isSome then .error .alreadyExists
  else .ok { iso with nocloudDir := true, userData := some yaml,
                      metaData := some ['\n'] }

/-- `AutoInstallBuilder._update_grub`: read both boot-menu files, transform
each, capture the digest of the exact grub bytes written, and write both
transformed texts back in place. -/
def update_grub (md5 : Str → Str) (cfg : BuilderConfig) (b : BuilderState)
    (iso : IsoState) : Except BuildError (BuilderState × IsoState) :=
  match iso.grub, iso.isolinux with
  | some grubText, some isolinuxText =>
      let newGrub := modify_text cfg.grub_entry_stamp cfg.autoinstall_prompt
        grubText (if cfg.supports_efi then none else some "EFI".toList) true
      let newIsolinux := modify_text cfg.grub_entry_stamp cfg.autoinstall_prompt
        isolinuxText (if cfg.supports_mbr then none else some "MBR".toList) false
      .ok ({ b with grub_hash := some (create_hash_file_record md5 newGrub grub_path) },
           { iso with grub := some newGrub, isolinux := some newIsolinux })
  | _, _ => .error .notFound

/-- The new manifest sequence built by `AutoInstallBuilder._update_hash_file`:
every existing record whose path differs from the grub file's canonical
path, then the captured grub record. -/
def reconcile_records (records : List HashFileRecord)
    (grubHash : HashFileRecord) : List HashFileRecord :=
  records.filter (fun r => r.path ≠ canonical_hash_file_path grub_path) ++ [grubHash]

/-- `AutoInstallBuilder._update_hash_file`: read `/md5sum.txt`, assert the
grub digest was captured, parse the manifest, and write the reconciled
manifest back in place.  (The `assert` runs before the lazy parse is
forced.) -/
def update_hash_file (grubHash : Option HashFileRecord) (iso : IsoState) :
    Except BuildError IsoState :=
  match iso.md5sum with
  | none => .error .notFound
  | some text =>
      match grubHash with
      | none => .error .assertionFailed
      | some h =>
          match parse_hash_file text with
          | .error e => .error (.formatError e)
          | .ok records =>
              .ok { iso with md5sum := some (write_hash_file (reconcile_records records h)) }

/-- `AutoInstallBuilder.build`: the three phases in order —
`_add_autoinstall`, `_update_grub`, `_update_hash_file`. -/
def build (md5 : Str → Str) (cfg : BuilderConfig) (iso : IsoState) :
    Except BuildError IsoState :=
  match add_autoinstall cfg.autoinstall_yaml iso with
  | .error e => .error e
  | .ok iso1 =>
      match update_grub md5 cfg ⟨none⟩ iso1 with
      | .error e => .error e
      | .ok (b2, iso2) => update_hash_file b2.grub_hash iso2

/-! ### General helper lemmas -/

theorem mapExcept_mem_ok {α β ε : Type} (f : α → Except ε β) {l : List α}
    {out : List β} (h : mapExcept f l = .ok out) {a : α} (ha : a ∈ l) :
    ∃ b, f a = .ok b ∧ b ∈ out := by
  induction l generalizing out with
  | nil => cases ha
  | cons x xs ih =>
      rw [mapExcept] at h
      cases hfx : f x with
      | error e => rw [hfx] at h; cases h
      | ok b =>
          rw [hfx] at h
          cases hrest : mapExcept f xs with
          | error e => rw [hrest] at h; cases h
          | ok bs =>
              rw [hrest] at h
              cases h
              rcases List.mem_cons.mp ha with rfl | ha
              · exact ⟨b, hfx, List.mem_cons_self _ _⟩
              · obtain ⟨b2, hb2, hmem⟩ := ih hrest ha
                exact ⟨b2, hb2, List.mem_cons_of_mem _ hmem⟩

theorem mapExcept_error_of_mem {α β ε : Type} (f : α → Except ε β)
    {l : List α} {a : α} (ha : a ∈ l) {e : ε} (he : f a = .error e)
    (huniq : ∀ x e2, f x = .error e2 → e2 = e) :
    mapExcept f l = .error e := by
  induction l with
  | nil => cases ha
  | cons x xs ih =>
      rw [mapExcept]
      cases hfx : f x with
      | error e2 => rw [huniq x e2 hfx]
      | ok b =>
          rcases List.mem_cons.mp ha with rfl | ha
          · rw [hfx] at he; cases he
          · rw [ih ha]

/-! ### Builder safety (claim C10) -/

theorem add_autoinstall_no_assert (y : Str) (iso : IsoState) :
    add_autoinstall y iso ≠ .error .assertionFailed := by
  unfold add_autoinstall
  split
  · simp
  · split
    · simp
    · split <;> simp

theorem update_grub_ok_hash {md5 : Str → Str} {cfg : BuilderConfig}
    {b b2 : BuilderState} {iso iso2 : IsoState}
    (h : update_grub md5 cfg b iso = .ok (b2, iso2)) :
    b2.grub_hash.isSome := by
  unfold update_grub at h
  cases hg : iso.grub with
  | none => rw [hg] at h; cases iso.isolinux <;> simp at h
  | some g =>
      cases hi : iso.isolinux with
      | none => rw [hg, hi] at h; simp at h
      | some i =>
          rw [hg, hi] at h
          simp only [Except.ok.injEq, Prod.mk.injEq] at h
          obtain ⟨hb, _⟩ := h
          rw [← hb]
          rfl

theorem update_grub_no_assert (md5 : Str → Str) (cfg : BuilderConfig)
    (b : BuilderState) (iso : IsoState) :
    update_grub md5 cfg b iso ≠ .error .assertionFailed := by
  unfold update_grub
  cases iso.grub <;> cases iso.isolinux <;> simp

theorem update_hash_file_no_assert_of_some {gh : Option HashFileRecord}
    (hgh : gh.isSome) (iso : IsoState) :
    update_hash_file gh iso ≠ .error .assertionFailed := by
  unfold update_hash_file
  cases hm : iso.md5sum with
  | none => simp
  | some text =>
      cases gh with
      | none => cases hgh
      | some h => cases hp : parse_hash_file text <;> simp [hp]

/-- C10: in every run of `build()`, the `assert self._grub_hash is not None`
inside the manifest-reconcile phase never fails, because the boot-menu
patching phase (which always assigns the captured digest) runs before the
manifest-reconcile phase. -/
theorem C10_assert_never_fails (md5 : Str → Str) (cfg : BuilderConfig)
    (iso : IsoState) : build md5 cfg iso ≠ .error .assertionFailed := by
  intro hc
  unfold build at hc
  split at hc
  · rename_i e heq
    injection hc with hc2
    subst hc2
    exact add_autoinstall_no_assert cfg.autoinstall_yaml iso heq
  · rename_i iso1 heq
    split at hc
    · rename_i e heq2
      injection hc with hc2
      subst hc2
      exact update_grub_no_assert md5 cfg ⟨none⟩ iso1 heq2
    · rename_i b2 iso2 heq2
      exact update_hash_file_no_assert_of_some (update_grub_ok_hash heq2) iso2 hc

/-- C10 witness: `build` at a concrete configuration and image. -/
theorem C10_assert_never_fails_witness :
    build (fun _ => "d41d8cd98f00b204e9800998ecf8427e".toList)
      ⟨"yaml".toList, "AutoInstall".toList, true, true, true⟩
      ⟨some "x ---".toList, some "y ---".toList,
        some "aaaa  ./isolinux/txt.cfg\n".toList, false, none, none⟩ ≠
      .error .assertionFailed :=
  C10_assert_never_fails _ _ _

/-! ### Tree staging (claims C8, C9) -/

/-- C9: any source entry that is neither a regular file nor a directory
makes the staging call fail with `UnsupportedEntryError`; the call does not
complete normally. -/
theorem C9_unsupported_entry (dest : Str) (entries : List FsEntry)
    (e : FsEntry) (hmem : e ∈ entries) (hkind : e.kind = .other) :
    copy_directory dest entries = .error .unsupportedEntry := by
  unfold copy_directory
  rw [mapExcept_error_of_mem _ hmem]
  · rw [hkind]
  · intro x e2 hx
    cases x.kind <;> simp_all

/-- C9 witness: a tree containing a non-file, non-directory entry. -/
theorem C9_unsupported_entry_witness :
    copy_directory "/d".toList
      [⟨"/a".toList, .dir⟩, ⟨"/a/s".toList, .other⟩] =
      .error .unsupportedEntry :=
  C9_unsupported_entry _ _ ⟨"/a/s".toList, .other⟩ (by decide) rfl

/-- C8: every regular file staged via directory copy yields an image entry
whose mode is the executable mode `0o0100555` when the source's
user-executable bit is set and the default mode (no explicit mode) when it
is not; tar staging assigns the mode by the same rule. -/
theorem C8_permission_preservation (dest : Str) (entries : List FsEntry)
    (p : Str) (m : Nat) (ops : List IsoOp)
    (hok : copy_directory dest entries = .ok ops)
    (hmem : (⟨p, .file m⟩ : FsEntry) ∈ entries)
    (md5 : Str → Str) (isoPath : Str) (infos : List TarInfo) (info : TarInfo)
    (hti : info ∈ infos) (hname : info.name ≠ ['.']) (hdir : info.isDir = false) :
    (copy_file m (dest ++ p) ∈ ops ∧
      copy_file m (dest ++ p) =
        .addFile (dest ++ p) (if Nat.testBit m 6 then some 0o100555 else none)) ∧
    IsoOp.addFile (isoPath ++ info.name)
        (if Nat.testBit info.mode 6 then some 0o100555 else none) ∈
      (add_from_tar md5 isoPath infos).1 := by
  have hbit : ∀ k : Nat, (k &&& S_IXUSR ≠ 0) ↔ Nat.testBit k 6 = true := by
    intro k
    have h64 : S_IXUSR = 2 ^ 6 := rfl
    rw [h64, Nat.and_two_pow]
    cases hb : Nat.testBit k 6 <;> simp
  constructor
  · constructor
    · unfold copy_directory at hok
      cases hmap : mapExcept (fun e =>
          match e.kind with
          | .dir => Except.ok (IsoOp.mkdir (dest ++ e.relpath))
          | .file m => Except.ok (copy_file m (dest ++ e.relpath))
          | .other => Except.error StagingError.unsupportedEntry) entries with
      | error e => rw [hmap] at hok; cases hok
      | ok ops0 =>
          rw [hmap] at hok
          injection hok with hok
          obtain ⟨b, hb, hbmem⟩ := mapExcept_mem_ok _ hmap hmem
          simp only at hb
          injection hb with hb
          rw [← hok, hb]
          exact List.mem_cons_of_mem _ hbmem
    · simp [copy_file, hbit]
  · unfold add_from_tar
    simp only [List.map_map, List.mem_cons, List.mem_map, List.mem_filter,
      Function.comp]
    right
    refine ⟨info, ⟨hti, ?_⟩, ?_⟩
    · simpa using hname
    · simp [hdir, hbit]

/-- C8 witness: one executable and one plain file through both staging
paths. -/
theorem C8_permission_preservation_witness :
    ((copy_file 0o755 ("/d".toList ++ "/x".toList) ∈
        [IsoOp.mkdir "/d".toList,
         copy_file 0o755 ("/d".toList ++ "/x".toList),
         copy_file 0o644 ("/d".toList ++ "/y".toList)] ∧
      copy_file 0o755 ("/d".toList ++ "/x".toList) =
        .addFile ("/d".toList ++ "/x".toList)
          (if Nat.testBit 0o755 6 then some 0o100555 else none)) ∧
    IsoOp.addFile ("/t".toList ++ "/z".toList)
        (if Nat.testBit (0o644 : Nat) 6 then some 0o100555 else none) ∈
      (add_from_tar (fun _ => []) "/t".toList
        [⟨"/z".toList, false, 0o644, "c".toList⟩]).1) :=
  C8_permission_preservation "/d".toList
    [⟨"/x".toList, .file 0o755⟩, ⟨"/y".toList, .file 0o644⟩]
    "/x".toList 0o755 _ (by decide) (by decide)
    (fun _ => []) "/t".toList [⟨"/z".toList, false, 0o644, "c".toList⟩]
    ⟨"/z".toList, false, 0o644, "c".toList⟩ (by decide) (by decide) rfl

/-! ### Source acquisition (claims C3, C4, C5) -/

theorem fetch_cached {md5 : Str → Str} {n : Str} {net : Network} {now : Nat}
    {s : FsState} (h : is_validated s = true) :
    fetch md5 n net now s = ⟨.ok n, s, []⟩ := by
  unfold fetch
  rw [if_pos h]

theorem fetch_not_validated {md5 : Str → Str} {n : Str} {net : Network}
    {now : Nat} {s : FsState} (h : is_validated s = false) :
    fetch md5 n net now s =
      (let cleared := if !need_download s then clear s else (s, [])
       let s2 : FsState :=
         { cleared.1 with iso := some ⟨now, net.isoContent⟩,
                          checksum := some ⟨now, net.checksumContent⟩ }
       let evs := cleared.2 ++ [FetchEv.downloadIso, FetchEv.downloadChecksum]
       match findDigest n (fileLines net.checksumContent) with
       | .error e => ⟨.error e, s2, evs⟩
       | .ok actual =>
           if md5 net.isoContent = actual then
             ⟨.ok n, { s2 with marker := some now }, evs ++ [FetchEv.touchMarker]⟩
           else
             ⟨.error .attributeError, s2, evs⟩) := by
  unfold fetch
  rw [if_neg (by simp [h])]

theorem fetch_ok_validated {md5 : Str → Str} {n : Str} {net : Network}
    {now : Nat} {s : FsState} {p : Str} {s1 : FsState} {evs : List FetchEv}
    (h : fetch md5 n net now s = ⟨.ok p, s1, evs⟩) :
    p = n ∧ is_validated s1 = true := by
  by_cases hv : is_validated s = true
  · rw [fetch_cached hv] at h
    injection h with h1 h2 h3
    injection h1 with h1
    exact ⟨h1.symm, h2 ▸ hv⟩
  · rw [fetch_not_validated (Bool.not_eq_true _ ▸ hv)] at h
    simp only [] at h
    split at h
    · cases h
    · split at h
      · injection h with h1 h2 h3
        injection h1 with h1
        refine ⟨h1.symm, ?_⟩
        rw [← h2]
        simp [is_validated]
      · cases h

/-- C5: whenever the marker and image exist and the marker is not older
than the image, `fetch` performs no download and returns the existing image
path; in particular a second `fetch` right after a successful one returns
the same path with no further events. -/
theorem C5_idempotent_acquisition (md5 md5b : Str → Str) (n : Str)
    (net netb : Network) (now nowb : Nat) (s : FsState) :
    (is_validated s = true → fetch md5 n net now s = ⟨.ok n, s, []⟩) ∧
    (∀ p s1 evs, fetch md5 n net now s = ⟨.ok p, s1, evs⟩ →
      p = n ∧ fetch md5b n netb nowb s1 = ⟨.ok n, s1, []⟩) := by
  refine ⟨fetch_cached, ?_⟩
  intro p s1 evs h
  obtain ⟨hp, hv⟩ := fetch_ok_validated h
  exact ⟨hp, fetch_cached hv⟩

/-- C5 witness: a validated state (marker at time 7, image at time 5). -/
theorem C5_idempotent_acquisition_witness :
    fetch (fun _ => []) "n".toList ⟨[], []⟩ 9
        ⟨some ⟨5, "X".toList⟩, some ⟨5, "M".toList⟩, some 7⟩ =
      ⟨.ok "n".toList, ⟨some ⟨5, "X".toList⟩, some ⟨5, "M".toList⟩, some 7⟩, []⟩ :=
  (C5_idempotent_acquisition (fun _ => []) (fun _ => []) "n".toList
    ⟨[], []⟩ ⟨[], []⟩ 9 9 ⟨some ⟨5, "X".toList⟩, some ⟨5, "M".toList⟩, some 7⟩).1
    (by decide)

/-- C3 counterexample: with the image present but the checksum-manifest
file absent (and no marker, so the state is not validated), `fetch`
performs the fresh download without ever deleting the old image file,
contrary to the claim that the old image, manifest and marker are deleted
before any state that is not validated is re-downloaded. -/
theorem C3_counterexample :
    (⟨some ⟨5, "X".toList⟩, none, none⟩ : FsState).iso.isSome = true ∧
    is_validated ⟨some ⟨5, "X".toList⟩, none, none⟩ = false ∧
    FetchEv.downloadIso ∈
      (fetch (fun _ => "d".toList) "n".toList ⟨"X".toList, "d  n\n".toList⟩ 10
        ⟨some ⟨5, "X".toList⟩, none, none⟩).events ∧
    FetchEv.deleteIso ∉
      (fetch (fun _ => "d".toList) "n".toList ⟨"X".toList, "d  n\n".toList⟩ 10
        ⟨some ⟨5, "X".toList⟩, none, none⟩).events := by
  decide

/-- C3 (amended): when the image file **and** the manifest file both exist
and the state is not validated, `fetch` deletes the manifest, the marker
(when present) and the image, in that order, before downloading both files
afresh; when the manifest file is missing no deletion happens. -/
theorem C3_stale_file_recovery (md5 : Str → Str) (n : Str) (net : Network)
    (now : Nat) (s : FsState) (hiso : s.iso.isSome = true)
    (hck : s.checksum.isSome = true) (hnv : is_validated s = false) :
    ∃ tl, (fetch md5 n net now s).events =
        [FetchEv.deleteChecksum] ++
        (if s.marker.isSome then [FetchEv.deleteMarker] else []) ++
        [FetchEv.deleteIso, FetchEv.downloadIso, FetchEv.downloadChecksum] ++ tl ∧
      (tl = [] ∨ tl = [FetchEv.touchMarker]) := by
  rw [fetch_not_validated hnv]
  have hnd : need_download s = false := by
    simp [need_download, hiso, hck]
  simp only [hnd, Bool.not_false, if_pos, clear, hck, hiso, if_true]
  split
  · refine ⟨[], ?_, Or.inl rfl⟩
    simp
  · split
    · refine ⟨[FetchEv.touchMarker], ?_, Or.inr rfl⟩
      simp
    · refine ⟨[], ?_, Or.inl rfl⟩
      simp

/-- C3 witness: image and manifest present, marker stale. -/
theorem C3_stale_file_recovery_witness :
    ∃ tl, (fetch (fun _ => "d".toList) "n".toList ⟨"X".toList, "d  n\n".toList⟩
        10 ⟨some ⟨5, "X".toList⟩, some ⟨4, "M".toList⟩, some 3⟩).events =
        [FetchEv.deleteChecksum] ++
        (if (⟨some ⟨5, "X".toList⟩, some ⟨4, "M".toList⟩,
            some 3⟩ : FsState).marker.isSome then [FetchEv.deleteMarker] else []) ++
        [FetchEv.deleteIso, FetchEv.downloadIso, FetchEv.downloadChecksum] ++ tl ∧
      (tl = [] ∨ tl = [FetchEv.touchMarker]) :=
  C3_stale_file_recovery (fun _ => "d".toList) "n".toList
    ⟨"X".toList, "d  n\n".toList⟩ 10
    ⟨some ⟨5, "X".toList⟩, some ⟨4, "M".toList⟩, some 3⟩
    (by decide) (by decide) (by decide)

theorem findDigest_of_parse {n : Str} {lines : List Str}
    {recs : List HashFileRecord} (h : mapExcept parseHashLine lines = .ok recs) :
    findDigest n lines =
      (match recs.find? (fun r => r.path = n) with
       | some r => .ok r.digest
       | none => .error .attributeError) := by
  induction lines generalizing recs with
  | nil =>
      rw [mapExcept] at h
      injection h with h
      subst h
      rfl
  | cons l ls ih =>
      rw [mapExcept] at h
      cases hl : parseHashLine l with
      | error e => rw [hl] at h; cases h
      | ok r =>
          rw [hl] at h
          cases hrest : mapExcept parseHashLine ls with
          | error e => rw [hrest] at h; cases h
          | ok rs =>
              rw [hrest] at h
              injection h with h
              subst h
              rw [findDigest, hl, List.find?]
              by_cases hp : r.path = n
              · simp [hp]
              · simp [hp, ih hrest]

/-- C4 (code bug): the claim's two validation-failure behaviours are the
spec's clear intent, but the code cannot exhibit them: both failure paths
of `_validate` evaluate the misspelled `self.iso_name` and crash with
`AttributeError` before either `IsoModderFatalException` is raised.
Evaluated at concrete failing inputs: a run whose downloaded manifest has
a record for the image name with a differing digest, and a run whose
manifest has no record for the image name, both complete their downloads
and end in the `AttributeError` crash — never the claimed
`ValidationError` — and the marker is never created (a pre-existing stale
marker survives when the cleanup step was skipped). -/
theorem C4_validation_crash :
    (fetch (fun _ => "d".toList) "n".toList ⟨"X".toList, "zz  n\n".toList⟩ 10
        ⟨some ⟨5, "X".toList⟩, none, none⟩).result = .error .attributeError ∧
    (fetch (fun _ => "d".toList) "n".toList ⟨"X".toList, "zz  m\n".toList⟩ 10
        ⟨some ⟨5, "X".toList⟩, none, none⟩).result = .error .attributeError ∧
    FetchEv.downloadIso ∈
      (fetch (fun _ => "d".toList) "n".toList ⟨"X".toList, "zz  n\n".toList⟩ 10
        ⟨some ⟨5, "X".toList⟩, none, none⟩).events ∧
    FetchEv.downloadChecksum ∈
      (fetch (fun _ => "d".toList) "n".toList ⟨"X".toList, "zz  m\n".toList⟩ 10
        ⟨some ⟨5, "X".toList⟩, none, none⟩).events ∧
    FetchEv.touchMarker ∉
      (fetch (fun _ => "d".toList) "n".toList ⟨"X".toList, "zz  n\n".toList⟩ 10
        ⟨some ⟨5, "X".toList⟩, none, none⟩).events ∧
    (fetch (fun _ => "d".toList) "n".toList ⟨"X".toList, "zz  n\n".toList⟩ 10
        ⟨some ⟨5, "X".toList⟩, none, none⟩).state.marker = none ∧
    (fetch (fun _ => "d".toList) "n".toList ⟨"X".toList, "zz  n\n".toList⟩ 10
        ⟨some ⟨5, "X".toList⟩, none, some 3⟩).state.marker = some 3 := by
  decide

/-! ### Hash manifest codec (claims C2, C7) -/

/-- A lowercase hexadecimal digit: `0`-`9` (codepoints 48-57) or `a`-`f`
(codepoints 97-102). -/
def isLowerHexDigit (c : Char) : Bool :=
  (48 ≤ c.toNat && c.toNat ≤ 57) || (97 ≤ c.toNat && c.toNat ≤ 102)

/-- The validity notion stated by claim C2: lowercase-hex digest with no
whitespace, non-empty path not beginning with `*` or whitespace. -/
def claimValidRecord (r : HashFileRecord) : Bool :=
  !r.digest.isEmpty && r.digest.all isLowerHexDigit && !r.path.isEmpty &&
  (match r.path.head? with
   | some c => !(c = '*') && !pySpace c
   | none => false)

/-- Validity sufficient for the round trip: claim C2's conditions plus a
path that contains no newline and does not end in whitespace. -/
def roundTripValidRecord (r : HashFileRecord) : Bool :=
  claimValidRecord r && !r.path.contains '\n' &&
  (match r.path.getLast? with
   | some c => !pySpace c
   | none => false)

theorem hex_not_space {c : Char} (h : isLowerHexDigit c = true) :
    pySpace c = false := by
  simp only [isLowerHexDigit, Bool.or_eq_true, Bool.and_eq_true,
    decide_eq_true_eq] at h
  simp only [pySpace, Bool.or_eq_false_iff, Bool.and_eq_false_iff,
    decide_eq_false_iff_not, Bool.or_eq_true]
  omega

theorem hex_ne_newline {c : Char} (h : isLowerHexDigit c = true) :
    c ≠ '\n' := by
  intro he
  subst he
  simp [isLowerHexDigit] at h

theorem dropWhileConsNeg {p : Char → Bool} {c : Char} {l : Str}
    (h : p c = false) : (c :: l).dropWhile p = c :: l := by
  simp [List.dropWhile, h]

theorem takeWhileConsNeg {p : Char → Bool} {c : Char} {l : Str}
    (h : p c = false) : (c :: l).takeWhile p = [] := by
  simp [List.takeWhile, h]

theorem dropWhileAppend {p : Char → Bool} {a b : Str}
    (h : ∀ x ∈ a, p x = true) : (a ++ b).dropWhile p = b.dropWhile p := by
  induction a with
  | nil => rfl
  | cons c a2 ih =>
      simp only [List.cons_append, List.dropWhile,
        h c (List.mem_cons_self _ _)]
      exact ih (fun x hx => h x (List.mem_cons_of_mem _ hx))

theorem dropWhileConsPos {p : Char → Bool} {c : Char} {l : Str}
    (h : p c = true) : (c :: l).dropWhile p = l.dropWhile p := by
  simp [List.dropWhile, h]

theorem takeWhileAppend {p : Char → Bool} {a b : Str}
    (h : ∀ x ∈ a, p x = true) : (a ++ b).takeWhile p = a ++ b.takeWhile p := by
  induction a with
  | nil => rfl
  | cons c a2 ih =>
      simp only [List.cons_append, List.takeWhile,
        h c (List.mem_cons_self _ _)]
      rw [show (a2.append b) = a2 ++ b from rfl,
        ih (fun x hx => h x (List.mem_cons_of_mem _ hx))]

theorem pyStrip_line {digest path : Str} (hd : digest ≠ [])
    (hdall : ∀ x ∈ digest, pySpace x = false) (hp : path ≠ [])
    (hlast : ∀ c, path.getLast? = some c → pySpace c = false) :
    pyStrip (digest ++ [' ', ' '] ++ path ++ ['\n']) =
      digest ++ [' ', ' '] ++ path := by
  obtain ⟨p0, cl, rfl⟩ : ∃ p0 cl, path = p0 ++ [cl] := by
    rcases List.eq_nil_or_concat path with h | ⟨p0, cl, h⟩
    · exact absurd h hp
    · exact ⟨p0, cl, by simpa [List.concat_eq_append] using h⟩
  have hcl : pySpace cl = false := hlast cl (by simp)
  obtain ⟨d0, d2, rfl⟩ : ∃ d0 d2, digest = d0 :: d2 := by
    cases digest with
    | nil => exact absurd rfl hd
    | cons d0 d2 => exact ⟨d0, d2, rfl⟩
  unfold pyStrip
  have hL : (d0 :: d2 ++ [' ', ' '] ++ (p0 ++ [cl]) ++ ['\n'] : Str) =
      d0 :: (d2 ++ ' ' :: ' ' :: p0 ++ [cl, '\n']) := by
    simp
  rw [hL, dropWhileConsNeg (hdall d0 (List.mem_cons_self _ _))]
  have hrev : (d0 :: (d2 ++ ' ' :: ' ' :: p0 ++ [cl, '\n']) : Str).reverse =
      '\n' :: cl :: (p0.reverse ++ ' ' :: ' ' :: (d2.reverse ++ [d0])) := by
    simp
  rw [hrev, dropWhileConsPos (by decide), dropWhileConsNeg hcl]
  simp

theorem pySplit1_line {digest path : Str} (hd : digest ≠ [])
    (hdall : ∀ x ∈ digest, pySpace x = false) (hp : path ≠ [])
    (hhead : ∀ c, path.head? = some c → pySpace c = false) :
    pySplit1 (digest ++ [' ', ' '] ++ path) = [digest, path] := by
  obtain ⟨c0, p2, rfl⟩ : ∃ c0 p2, path = c0 :: p2 := by
    cases path with
    | nil => exact absurd rfl hp
    | cons c0 p2 => exact ⟨c0, p2, rfl⟩
  have hc0 : pySpace c0 = false := hhead c0 rfl
  obtain ⟨d0, d2, rfl⟩ : ∃ d0 d2, digest = d0 :: d2 := by
    cases digest with
    | nil => exact absurd rfl hd
    | cons d0 d2 => exact ⟨d0, d2, rfl⟩
  simp only [pySplit1]
  have hds : ∀ x ∈ (d0 :: d2 : Str), (fun c => !pySpace c) x = true := by
    intro x hx
    simp [hdall x hx]
  have hL : (d0 :: d2 ++ [' ', ' '] ++ (c0 :: p2) : Str) =
      (d0 :: d2) ++ (' ' :: ' ' :: c0 :: p2) := by
    simp
  rw [hL]
  rw [show ((d0 :: d2) ++ (' ' :: ' ' :: c0 :: p2) : Str) =
      d0 :: (d2 ++ (' ' :: ' ' :: c0 :: p2)) from rfl]
  rw [dropWhileConsNeg (hdall d0 (List.mem_cons_self _ _))]
  rw [show (d0 :: (d2 ++ (' ' :: ' ' :: c0 :: p2)) : Str) =
      (d0 :: d2) ++ (' ' :: ' ' :: c0 :: p2) from rfl]
  rw [takeWhileAppend hds,
    takeWhileConsNeg (by decide : ((fun c => !pySpace c) ' ') = false)]
  rw [dropWhileAppend hds,
    dropWhileConsNeg (by decide : ((fun c => !pySpace c) ' ') = false)]
  rw [dropWhileConsPos (by decide), dropWhileConsPos (by decide),
    dropWhileConsNeg hc0]
  simp

theorem fileLines_append {a b : Str} (h : '\n' ∉ a) :
    fileLines (a ++ '\n' :: b) = (a ++ ['\n']) :: fileLines b := by
  induction a with
  | nil => simp [fileLines]
  | cons c a2 ih =>
      have hc : ¬(c = '\n') := fun e => h (e ▸ List.mem_cons_self _ _)
      rw [List.cons_append, fileLines]
      rw [if_neg hc, ih (fun hm => h (List.mem_cons_of_mem _ hm))]
      simp

theorem roundTripValid_parts {r : HashFileRecord}
    (h : roundTripValidRecord r = true) :
    r.digest ≠ [] ∧ (∀ x ∈ r.digest, pySpace x = false) ∧ ('\n' ∉ r.digest) ∧
    r.path ≠ [] ∧ (∀ c, r.path.head? = some c → ¬(c = '*') ∧ pySpace c = false) ∧
    ('\n' ∉ r.path) ∧ (∀ c, r.path.getLast? = some c → pySpace c = false) := by
  obtain ⟨path, digest⟩ := r
  simp only [roundTripValidRecord, claimValidRecord, Bool.and_eq_true] at h
  obtain ⟨⟨⟨⟨⟨h1, h2⟩, h3⟩, h4⟩, h5⟩, h6⟩ := h
  simp only [Bool.not_eq_true'] at h1 h3
  have h1n : digest ≠ [] := by
    cases digest
    · simp at h1
    · simp
  have h3n : path ≠ [] := by
    cases path
    · simp at h3
    · simp
  simp only [List.all_eq_true] at h2
  refine ⟨h1n, ?_, ?_, h3n, ?_, ?_, ?_⟩
  · exact fun x hx => hex_not_space (h2 x hx)
  · intro hmem
    exact hex_ne_newline (h2 _ hmem) rfl
  · intro c hc
    rw [hc] at h4
    simp only [Bool.and_eq_true, Bool.not_eq_true', decide_eq_false_iff_not] at h4
    exact ⟨h4.1, h4.2⟩
  · simp only [Bool.not_eq_true'] at h5
    intro hmem
    rw [List.contains_eq_any_beq] at h5
    have : (List.any path fun x => '\n' == x) = true :=
      List.any_eq_true.mpr ⟨'\n', hmem, by simp⟩
    rw [this] at h5
    cases h5
  · intro c hc
    rw [hc] at h6
    simpa using h6

theorem parseHashLine_roundtrip {r : HashFileRecord}
    (h : roundTripValidRecord r = true) :
    parseHashLine (r.digest ++ [' ', ' '] ++ r.path ++ ['\n']) = .ok r := by
  obtain ⟨hd, hdall, _, hp, hhead, _, hlast⟩ := roundTripValid_parts h
  unfold parseHashLine
  rw [pyStrip_line hd hdall hp hlast]
  rw [pySplit1_line hd hdall hp (fun c hc => (hhead c hc).2)]
  have hstar : r.path.dropWhile (fun c => c = '*') = r.path := by
    cases hc0 : r.path with
    | nil => rfl
    | cons c0 p2 =>
        apply dropWhileConsNeg
        have := (hhead c0 (by rw [hc0]; rfl)).1
        simpa using this
  simp [hstar]

/-- C2 counterexample: the record with path `"a "` (trailing space) and
digest `"ab"` satisfies the claim's validity conditions, yet parsing the
serialized form loses the trailing space, so the round trip fails. -/
theorem C2_counterexample :
    claimValidRecord ⟨"a ".toList, "ab".toList⟩ = true ∧
    parse_hash_file (write_hash_file [⟨"a ".toList, "ab".toList⟩]) ≠
      .ok [⟨"a ".toList, "ab".toList⟩] ∧
    parse_hash_file (write_hash_file [⟨"a ".toList, "ab".toList⟩]) =
      .ok [⟨"a".toList, "ab".toList⟩] := by
  decide

/-- C2 (amended): for every sequence of records whose digests are non-empty
lowercase hex and whose paths are non-empty, do not begin with `*` or
whitespace, contain no newline, and do not end in whitespace, parsing the
serialized text yields an equal sequence in the same order. -/
theorem C2_roundtrip (records : List HashFileRecord)
    (h : ∀ r ∈ records, roundTripValidRecord r = true) :
    parse_hash_file (write_hash_file records) = .ok records := by
  induction records with
  | nil => rfl
  | cons r rs ih =>
      have hr := h r (List.mem_cons_self _ _)
      obtain ⟨_, hdall, hdnl, _, _, hpnl, _⟩ := roundTripValid_parts hr
      have hw : write_hash_file (r :: rs) =
          (r.digest ++ [' ', ' '] ++ r.path) ++ '\n' :: write_hash_file rs := by
        simp [write_hash_file]
      have hnl : '\n' ∉ r.digest ++ [' ', ' '] ++ r.path := by
        intro hmem
        rcases List.mem_append.mp hmem with hmem | hmem
        · rcases List.mem_append.mp hmem with hmem | hmem
          · exact hdnl hmem
          · simp at hmem
        · exact hpnl hmem
      unfold parse_hash_file
      rw [hw, fileLines_append hnl, mapExcept]
      have hline : parseHashLine (r.digest ++ [' ', ' '] ++ r.path ++ ['\n']) =
          .ok r := parseHashLine_roundtrip hr
      rw [show (r.digest ++ [' ', ' '] ++ r.path) ++ ['\n'] =
          r.digest ++ [' ', ' '] ++ r.path ++ ['\n'] from by simp, hline]
      have hrest := ih (fun x hx => h x (List.mem_cons_of_mem _ hx))
      unfold parse_hash_file at hrest
      rw [hrest]

/-- C2 witness: a concrete valid record list round-trips. -/
theorem C2_roundtrip_witness :
    parse_hash_file (write_hash_file
      [⟨"./boot/grub/grub.cfg".toList, "0123456789abcdef".toList⟩,
       ⟨"./a b".toList, "ff".toList⟩]) =
      .ok [⟨"./boot/grub/grub.cfg".toList, "0123456789abcdef".toList⟩,
           ⟨"./a b".toList, "ff".toList⟩] :=
  C2_roundtrip _ (by decide)

theorem mapExcept_error_exists {α β ε : Type} (f : α → Except ε β)
    {lines : List α} {l : α} (hl : l ∈ lines) (hbad : ∀ b, f l ≠ .ok b) :
    ∃ e, mapExcept f lines = .error e := by
  induction lines with
  | nil => cases hl
  | cons x xs ih =>
      rw [mapExcept]
      cases hfx : f x with
      | error e => exact ⟨e, rfl⟩
      | ok b =>
          rcases List.mem_cons.mp hl with rfl | hl2
          · exact absurd hfx (hbad b)
          · obtain ⟨e, he⟩ := ih hl2
            rw [he]
            exact ⟨e, rfl⟩

theorem parseHashLine_short_error {l : Str}
    (h : (pySplit1 (pyStrip l)).length < 2) :
    ∀ b, parseHashLine l ≠ .ok b := by
  intro b
  unfold parseHashLine
  cases hsp : pySplit1 (pyStrip l) with
  | nil => simp
  | cons d rest =>
      cases rest with
      | nil => simp
      | cons p more =>
          rw [hsp] at h
          simp at h
          omega

theorem mapExcept_parse_ok {lines : List Str} {recs : List HashFileRecord}
    (h : mapExcept parseHashLine lines = .ok recs) :
    recs.length = lines.length ∧
    ∀ i l, lines.get? i = some l →
      ∃ d p rest, pySplit1 (pyStrip l) = d :: p :: rest ∧
        recs.get? i = some ⟨p.dropWhile (fun c => c = '*'), d⟩ := by
  induction lines generalizing recs with
  | nil =>
      rw [mapExcept] at h
      injection h with h
      subst h
      exact ⟨rfl, by intro i l hl; cases hl⟩
  | cons x xs ih =>
      rw [mapExcept] at h
      cases hfx : parseHashLine x with
      | error e => rw [hfx] at h; cases h
      | ok b =>
          rw [hfx] at h
          cases hrest : mapExcept parseHashLine xs with
          | error e => rw [hrest] at h; cases h
          | ok bs =>
              rw [hrest] at h
              injection h with h
              subst h
              obtain ⟨hlen, hidx⟩ := ih hrest
              refine ⟨by simp [hlen], ?_⟩
              intro i l hl
              cases i with
              | zero =>
                  have hxl : x = l := by injection hl
                  subst hxl
                  unfold parseHashLine at hfx
                  cases hsp : pySplit1 (pyStrip x) with
                  | nil => rw [hsp] at hfx; cases hfx
                  | cons d rest2 =>
                      cases rest2 with
                      | nil => rw [hsp] at hfx; cases hfx
                      | cons p more =>
                          rw [hsp] at hfx
                          injection hfx with hfx
                          exact ⟨d, p, more, rfl, by rw [← hfx]; rfl⟩
              | succ j => exact hidx j l hl

/-- C7: a manifest line with fewer than two whitespace-separated tokens
(after stripping) makes parsing signal the format error; when every line is
well-formed, line `i` yields the record whose digest is the line's first
token and whose path is the second token with leading `*` characters
stripped. -/
theorem C7_malformed_lines (text : Str) :
    ((∃ l ∈ fileLines text, (pySplit1 (pyStrip l)).length < 2) →
      ∃ e, parse_hash_file text = .error e) ∧
    (∀ recs, parse_hash_file text = .ok recs →
      recs.length = (fileLines text).length ∧
      ∀ i l, (fileLines text).get? i = some l →
        ∃ d p rest, pySplit1 (pyStrip l) = d :: p :: rest ∧
          recs.get? i = some ⟨p.dropWhile (fun c => c = '*'), d⟩) := by
  unfold parse_hash_file
  constructor
  · rintro ⟨l, hl, hshort⟩
    exact mapExcept_error_exists parseHashLine hl (parseHashLine_short_error hshort)
  · intro recs h
    exact mapExcept_parse_ok h

/-- C7 witness: a malformed one-token line errors; a star-marked
well-formed file parses to the described records. -/
theorem C7_malformed_lines_witness :
    (∃ e, parse_hash_file "abc\n".toList = .error e) ∧
    parse_hash_file "ff  *x\n".toList =
      .ok [⟨"x".toList, "ff".toList⟩] ∧
    (∃ d p rest,
      pySplit1 (pyStrip "ff  *x\n".toList) = d :: p :: rest ∧
      [(⟨"x".toList, "ff".toList⟩ : HashFileRecord)].get? 0 =
        some ⟨p.dropWhile (fun c => c = '*'), d⟩) := by
  refine ⟨(C7_malformed_lines "abc\n".toList).1 ⟨"abc\n".toList, by decide, by decide⟩,
    by decide, ?_⟩
  have h := ((C7_malformed_lines "ff  *x\n".toList).2
    [⟨"x".toList, "ff".toList⟩] (by decide)).2 0 "ff  *x\n".toList (by decide)
  simpa using h

/-! ### Manifest reconciliation (claim C1) -/

theorem add_autoinstall_ok_fields {y : Str} {iso iso1 : IsoState}
    (h : add_autoinstall y iso = .ok iso1) :
    iso1.grub = iso.grub ∧ iso1.isolinux = iso.isolinux ∧
      iso1.md5sum = iso.md5sum := by
  unfold add_autoinstall at h
  split at h
  · cases h
  · split at h
    · cases h
    · split at h
      · cases h
      · injection h with h
        subst h
        exact ⟨rfl, rfl, rfl⟩

theorem update_grub_ok_inv {md5 : Str → Str} {cfg : BuilderConfig}
    {b b2 : BuilderState} {iso iso2 : IsoState}
    (h : update_grub md5 cfg b iso = .ok (b2, iso2)) :
    ∃ g i, iso.grub = some g ∧ iso.isolinux = some i ∧
      (let gnew := modify_text cfg.grub_entry_stamp cfg.autoinstall_prompt g
        (if cfg.supports_efi then none else some "EFI".toList) true
       b2.grub_hash = some (create_hash_file_record md5 gnew grub_path) ∧
       iso2.grub = some gnew ∧ iso2.md5sum = iso.md5sum) := by
  unfold update_grub at h
  cases hg : iso.grub with
  | none => rw [hg] at h; cases iso.isolinux <;> simp at h
  | some g =>
      cases hi : iso.isolinux with
      | none => rw [hg, hi] at h; simp at h
      | some i =>
          rw [hg, hi] at h
          simp only [Except.ok.injEq, Prod.mk.injEq] at h
          obtain ⟨hb2, hiso2⟩ := h
          exact ⟨g, i, rfl, rfl, by rw [← hb2], by rw [← hiso2], by rw [← hiso2]⟩

theorem update_hash_file_ok_inv {gh : Option HashFileRecord}
    {iso iso3 : IsoState} (h : update_hash_file gh iso = .ok iso3) :
    ∃ mtext recs h0, iso.md5sum = some mtext ∧ gh = some h0 ∧
      parse_hash_file mtext = .ok recs ∧
      iso3.md5sum = some (write_hash_file (reconcile_records recs h0)) ∧
      iso3.grub = iso.grub := by
  unfold update_hash_file at h
  split at h
  · cases h
  · rename_i mtext hm
    cases gh with
    | none =>
        simp only [] at h
        cases h
    | some h0 =>
        simp only [] at h
        split at h
        · cases h
        · rename_i recs hp
          injection h with h
          subst h
          exact ⟨mtext, recs, h0, hm, rfl, hp, rfl, rfl⟩

theorem reconcile_filter_grub (recs : List HashFileRecord)
    (h : HashFileRecord) (hh : h.path = canonical_hash_file_path grub_path) :
    (reconcile_records recs h).filter
      (fun r => r.path = canonical_hash_file_path grub_path) = [h] := by
  unfold reconcile_records
  rw [List.filter_append]
  have h1 : (recs.filter
      (fun r => r.path ≠ canonical_hash_file_path grub_path)).filter
      (fun r => r.path = canonical_hash_file_path grub_path) = [] := by
    rw [List.filter_filter]
    apply List.filter_eq_nil_iff.mpr
    intro a _
    by_cases hp : a.path = canonical_hash_file_path grub_path <;> simp [hp]
  rw [h1]
  simp [hh]

theorem reconcile_filter_isolinux (recs : List HashFileRecord)
    (h : HashFileRecord) (hh : h.path = canonical_hash_file_path grub_path) :
    (reconcile_records recs h).filter
      (fun r => r.path = canonical_hash_file_path isolinux_path) =
    recs.filter (fun r => r.path = canonical_hash_file_path isolinux_path) := by
  unfold reconcile_records
  rw [List.filter_append]
  have hne : canonical_hash_file_path grub_path ≠
      canonical_hash_file_path isolinux_path := by decide
  have h2 : ([h] : List HashFileRecord).filter
      (fun r => r.path = canonical_hash_file_path isolinux_path) = [] := by
    simp [hh, hne]
  rw [h2, List.append_nil, List.filter_filter]
  apply List.filter_congr
  intro r _
  by_cases hp : r.path = canonical_hash_file_path isolinux_path
  · simp [hp, hne.symm]
  · simp [hp]

/-- Concrete digest function for concrete runs (a fixed 32-char hex). -/
def md5c : Str → Str := fun _ => "d41d8cd98f00b204e9800998ecf8427e".toList

/-- Concrete builder configuration with the constructor defaults. -/
def cfg0 : BuilderConfig :=
  ⟨"yaml".toList, "AutoInstall".toList, true, true, true⟩

/-- Concrete image whose manifest already holds a record for the
MBR-facing boot-menu path. -/
def iso0 : IsoState :=
  ⟨some "x ---".toList, some "y ---".toList,
    some "aaaa  ./isolinux/txt.cfg\n".toList, false, none, none⟩

/-- Count of manifest records for the MBR-facing boot-menu path after a
build outcome (claim C1 predicts `some 0` for every successful build). -/
def manifestIsolinuxCount (o : Except BuildError IsoState) : Option Nat :=
  match o with
  | .ok iso2 =>
      match iso2.md5sum with
      | some t =>
          match parse_hash_file t with
          | .ok rs =>
              some (rs.countP
                (fun r => r.path = canonical_hash_file_path isolinux_path))
          | .error _ => none
      | none => none
  | .error _ => none

/-- C1 counterexample: a successful build over a manifest that already
contains a record for `/isolinux/txt.cfg` leaves that record in place, so
the reconciled manifest does *not* contain zero records for the MBR-facing
boot-menu path. -/
theorem C1_counterexample :
    manifestIsolinuxCount (build md5c cfg0 iso0) = some 1 ∧
    manifestIsolinuxCount (build md5c cfg0 iso0) ≠ some 0 := by
  decide

/-- C1 (amended): after a successful build, the manifest written back
consists of the reconciled records: exactly one record for the EFI-facing
boot-menu path, whose digest is the MD5 of the exact bytes written for that
file in phase 2, while the records for the MBR-facing boot-menu path are
exactly those of the pre-build manifest (none added, none removed). -/
theorem C1_manifest_reconciliation (md5 : Str → Str) (cfg : BuilderConfig)
    (iso iso2 : IsoState) (hb : build md5 cfg iso = .ok iso2) :
    ∃ gtext mtext recs,
      iso.grub = some gtext ∧ iso.md5sum = some mtext ∧
      parse_hash_file mtext = .ok recs ∧
      (let gnew := modify_text cfg.grub_entry_stamp cfg.autoinstall_prompt gtext
          (if cfg.supports_efi then none else some "EFI".toList) true
       let h := create_hash_file_record md5 gnew grub_path
       iso2.grub = some gnew ∧
       iso2.md5sum = some (write_hash_file (reconcile_records recs h)) ∧
       (reconcile_records recs h).filter
           (fun r => r.path = canonical_hash_file_path grub_path) = [h] ∧
       h.digest = md5 gnew ∧
       (reconcile_records recs h).filter
           (fun r => r.path = canonical_hash_file_path isolinux_path) =
         recs.filter
           (fun r => r.path = canonical_hash_file_path isolinux_path)) := by
  unfold build at hb
  split at hb
  · cases hb
  · rename_i iso1 heq1
    split at hb
    · cases hb
    · rename_i b2 iso1b heq2
      obtain ⟨hg1, _, hm1⟩ := add_autoinstall_ok_fields heq1
      obtain ⟨g, i, hg, hi, hb2, hgnew, hmsame⟩ := update_grub_ok_inv heq2
      obtain ⟨mtext, recs, h0, hm, hgh, hparse, hm2, hg2⟩ :=
        update_hash_file_ok_inv hb
      have hgtext : iso.grub = some g := by rw [← hg1, hg]
      have hmtext : iso.md5sum = some mtext := by
        rw [← hm1, ← hmsame, hm]
      have hh0 : h0 = create_hash_file_record md5
          (modify_text cfg.grub_entry_stamp cfg.autoinstall_prompt g
            (if cfg.supports_efi then none else some "EFI".toList) true)
          grub_path := by
        rw [hb2] at hgh
        injection hgh with hgh
        exact hgh.symm
      refine ⟨g, mtext, recs, hgtext, hmtext, hparse, ?_, ?_, ?_, rfl, ?_⟩
      · rw [hg2, hgnew]
      · rw [hm2, hh0]
      · rw [← hh0]
        exact reconcile_filter_grub recs h0 (by rw [hh0]; rfl) ▸ (by rw [hh0])
      · rw [← hh0]
        exact reconcile_filter_isolinux recs h0 (by rw [hh0]; rfl)

/-- C1 witness: the amended statement at the concrete build. -/
theorem C1_manifest_reconciliation_witness :
    ∃ gtext mtext recs,
      iso0.grub = some gtext ∧ iso0.md5sum = some mtext ∧
      parse_hash_file mtext = .ok recs ∧
      (let gnew := modify_text cfg0.grub_entry_stamp cfg0.autoinstall_prompt
          gtext (if cfg0.supports_efi then none else some "EFI".toList) true
       let h := create_hash_file_record md5c gnew grub_path
       ((build md5c cfg0 iso0).toOption.getD iso0).grub = some gnew ∧
       ((build md5c cfg0 iso0).toOption.getD iso0).md5sum =
         some (write_hash_file (reconcile_records recs h)) ∧
       (reconcile_records recs h).filter
           (fun r => r.path = canonical_hash_file_path grub_path) = [h] ∧
       h.digest = md5c gnew ∧
       (reconcile_records recs h).filter
           (fun r => r.path = canonical_hash_file_path isolinux_path) =
         recs.filter
           (fun r => r.path = canonical_hash_file_path isolinux_path)) :=
  C1_manifest_reconciliation md5c cfg0 iso0
    ((build md5c cfg0 iso0).toOption.getD iso0) (by decide)

/-! ### Boot menu transformer: claim C6.

The spec-side (claim-side) description is per line; the code applies the
two regex substitutions to the whole text.  We relate the two. -/

/-- Python `s.rstrip()`. -/
def pyRstrip (s : Str) : Str := (s.reverse.dropWhile pySpace).reverse

/-- Claim side: a line ends (ignoring trailing whitespace) in the
terminator `---`. -/
def isTermLine (l : Str) : Bool := (['-', '-', '-'] : Str).isSuffixOf (pyRstrip l)

/-- Claim side: the terminator rewrite of one line — the stripped line with
its final `---` replaced by the replacement text (which ends in ` ---`, so
the directive is inserted before the terminator). -/
def lineTermSub (rep l : Str) : Str :=
  if isTermLine l then (pyRstrip l).take ((pyRstrip l).length - 3) ++ rep else l

/-- Claim side: the anchor stamping of one line. -/
def claimStampLine (stamp l : Str) : Str :=
  subLiteral anchor (anchor ++ ' ' :: stamp) l

/-- Claim side: the full per-line transform — stamp the anchor, then
rewrite the terminator. -/
def claimLineTransform (stamp rep l : Str) : Str :=
  lineTermSub rep (claimStampLine stamp l)

/-- A whitespace-only (possibly empty) line. -/
def allSpace (l : Str) : Bool := l.all pySpace

/-- No whitespace-only line directly follows a terminator line (the
condition under which the multi-line regex match does not swallow
neighbouring lines). -/
def noSwallow : List Str → Bool
  | l1 :: l2 :: rest => (!(isTermLine l1) || !(allSpace l2)) && noSwallow (l2 :: rest)
  | _ => true

/-- Joining lines with newlines (no terminal newline). -/
def joinLines : List Str → Str
  | [] => []
  | [l] => l
  | l :: ls => l ++ '\n' :: joinLines ls

/-! #### List utilities -/

theorem takeWhileLenLe {p : Char → Bool} : ∀ {l : Str},
    (l.takeWhile p).length ≤ l.length := by
  intro l
  induction l with
  | nil => simp
  | cons c l2 ih =>
      rw [List.takeWhile]
      cases p c <;> simp <;> omega

theorem takeWhileSubset {p : Char → Bool} : ∀ {l : Str} {x : Char},
    x ∈ l.takeWhile p → x ∈ l := by
  intro l
  induction l with
  | nil => intro x h; cases h
  | cons c l2 ih =>
      intro x h
      rw [List.takeWhile] at h
      cases hc : p c with
      | false => rw [hc] at h; cases h
      | true =>
          rw [hc] at h
          rcases List.mem_cons.mp h with rfl | h2
          · exact List.mem_cons_self _ _
          · exact List.mem_cons_of_mem _ (ih h2)

theorem takeWhileMemTrue {p : Char → Bool} : ∀ {l : Str} {x : Char},
    x ∈ l.takeWhile p → p x = true := by
  intro l
  induction l with
  | nil => intro x h; cases h
  | cons c l2 ih =>
      intro x h
      rw [List.takeWhile] at h
      cases hc : p c with
      | false => rw [hc] at h; cases h
      | true =>
          rw [hc] at h
          rcases List.mem_cons.mp h with rfl | h2
          · exact hc
          · exact ih h2

theorem dropWhileNeNil_iff {p : Char → Bool} : ∀ {l : Str},
    l.dropWhile p ≠ [] ↔ ∃ x ∈ l, p x = false := by
  intro l
  induction l with
  | nil => simp
  | cons c l2 ih =>
      rw [List.dropWhile]
      cases hc : p c with
      | false => simp [hc]
      | true =>
          simp only [ih]
          constructor
          · rintro ⟨x, hx, hpx⟩
            exact ⟨x, List.mem_cons_of_mem _ hx, hpx⟩
          · rintro ⟨x, hx, hpx⟩
            rcases List.mem_cons.mp hx with rfl | hx2
            · rw [hc] at hpx; cases hpx
            · exact ⟨x, hx2, hpx⟩

theorem dropWhileAppendStop {p : Char → Bool} : ∀ {a b : Str},
    a.dropWhile p ≠ [] → (a ++ b).dropWhile p = a.dropWhile p ++ b := by
  intro a
  induction a with
  | nil => intro b h; exact absurd rfl h
  | cons c a2 ih =>
      intro b h
      rw [List.dropWhile] at h ⊢
      rw [List.cons_append, List.dropWhile]
      cases hc : p c with
      | false => rfl
      | true =>
          rw [hc] at h
          exact ih h

theorem takeWhileAppendStop {p : Char → Bool} : ∀ {a b : Str},
    a.dropWhile p ≠ [] → (a ++ b).takeWhile p = a.takeWhile p := by
  intro a
  induction a with
  | nil => intro b h; exact absurd rfl h
  | cons c a2 ih =>
      intro b h
      rw [List.dropWhile] at h
      rw [List.cons_append, List.takeWhile, List.takeWhile]
      cases hc : p c with
      | false => rfl
      | true =>
          rw [hc] at h
          rw [ih h]

theorem dropWhileHeadFalse {p : Char → Bool} : ∀ {l : Str} {x : Char} {r : Str},
    l.dropWhile p = x :: r → p x = false := by
  intro l
  induction l with
  | nil => intro x r h; cases h
  | cons c l2 ih =>
      intro x r h
      rw [List.dropWhile] at h
      cases hc : p c with
      | false =>
          rw [hc] at h
          injection h with h1 _
          rw [← h1]
          exact hc
      | true =>
          rw [hc] at h
          exact ih h

theorem findIdxConsTrue {p : Char → Bool} {c : Char} {l : Str}
    (h : p c = true) : (c :: l).findIdx? p = some 0 := by
  rw [List.findIdx?_cons, h]
  simp

theorem findIdxConsFalse {p : Char → Bool} {c : Char} {l : Str}
    (h : p c = false) :
    (c :: l).findIdx? p = (l.findIdx? p).map (· + 1) := by
  rw [List.findIdx?_cons, h]
  simp

theorem findIdxAllFalse {p : Char → Bool} : ∀ {l : Str},
    (∀ x ∈ l, p x = false) → l.findIdx? p = none := by
  intro l
  induction l with
  | nil => intro _; rfl
  | cons c l2 ih =>
      intro h
      rw [findIdxConsFalse (h c (List.mem_cons_self _ _))]
      rw [ih (fun x hx => h x (List.mem_cons_of_mem _ hx))]
      rfl

theorem findIdxAppendFalse {p : Char → Bool} : ∀ {a b : Str},
    (∀ x ∈ a, p x = false) →
    (a ++ b).findIdx? p = (b.findIdx? p).map (a.length + ·) := by
  intro a
  induction a with
  | nil =>
      intro b _
      cases h : b.findIdx? p <;> simp [h]
  | cons c a2 ih =>
      intro b h
      rw [List.cons_append, findIdxConsFalse (h c (List.mem_cons_self _ _))]
      rw [ih (fun x hx => h x (List.mem_cons_of_mem _ hx))]
      cases b.findIdx? p <;> simp <;> omega

/-! #### `pyRstrip`, `lastNewlineIdx` and `termMatchLen` facts -/

theorem pyRstripAppendWs {u w : Str} (hw : ∀ x ∈ w, pySpace x = true) :
    pyRstrip (u ++ w) = pyRstrip u := by
  unfold pyRstrip
  rw [List.reverse_append]
  rw [dropWhileAppend (fun x hx => hw x (List.mem_reverse.mp hx))]

theorem pyRstripCons {c : Char} {l : Str}
    (h : l.reverse.dropWhile pySpace ≠ []) :
    pyRstrip (c :: l) = c :: pyRstrip l := by
  unfold pyRstrip
  rw [show ((c :: l : Str).reverse) = l.reverse ++ [c] from by simp]
  rw [dropWhileAppendStop h]
  simp

theorem pyRstripNeNil_iff {l : Str} :
    pyRstrip l ≠ [] ↔ ∃ x ∈ l, pySpace x = false := by
  unfold pyRstrip
  constructor
  · intro h
    have h2 : l.reverse.dropWhile pySpace ≠ [] := by
      intro he
      rw [he] at h
      exact h rfl
    obtain ⟨x, hx, hpx⟩ := dropWhileNeNil_iff.mp h2
    exact ⟨x, List.mem_reverse.mp hx, hpx⟩
  · rintro ⟨x, hx, hpx⟩
    have h2 : l.reverse.dropWhile pySpace ≠ [] :=
      dropWhileNeNil_iff.mpr ⟨x, List.mem_reverse.mpr hx, hpx⟩
    intro he
    rw [List.reverse_eq_nil_iff] at he
    exact h2 he

theorem pyRstrip_decomp (l : Str) :
    ∃ w, l = pyRstrip l ++ w ∧ ∀ x ∈ w, pySpace x = true := by
  refine ⟨(l.reverse.takeWhile pySpace).reverse, ?_, ?_⟩
  · unfold pyRstrip
    rw [← List.reverse_append, List.takeWhile_append_dropWhile]
    simp
  · intro x hx
    exact takeWhileMemTrue (List.mem_reverse.mp hx)

theorem pyRstripAllSpace {l : Str} (h : ∀ x ∈ l, pySpace x = true) :
    pyRstrip l = [] := by
  have h2 : l.reverse.dropWhile pySpace = [] := by
    have h3 := dropWhileAppend (p := pySpace) (a := l.reverse) (b := ([] : Str))
      (fun x hx => h x (List.mem_reverse.mp hx))
    simpa using h3
  simp [pyRstrip, h2]

theorem lastNewlineIdxAppend {a b : Str} (ha : '\n' ∉ a) (hb : '\n' ∉ b) :
    lastNewlineIdx (a ++ '\n' :: b) = some a.length := by
  unfold lastNewlineIdx
  rw [show ((a ++ '\n' :: b : Str)).reverse = b.reverse ++ '\n' :: a.reverse
    from by simp]
  rw [findIdxAppendFalse (fun x hx => by
    simp only [decide_eq_false_iff_not]
    intro he
    exact hb (List.mem_reverse.mp (he ▸ hx)))]
  rw [findIdxConsTrue (by simp)]
  simp

theorem lastNewlineIdxNone {w : Str} (h : '\n' ∉ w) :
    lastNewlineIdx w = none := by
  unfold lastNewlineIdx
  rw [findIdxAllFalse (fun x hx => by
    simp only [decide_eq_false_iff_not]
    intro he
    exact h (List.mem_reverse.mp (he ▸ hx)))]

theorem isPrefixOfDash3 {s : Str}
    (h : (['-', '-', '-'] : Str).isPrefixOf s = true) :
    ∃ rest, s = '-' :: '-' :: '-' :: rest := by
  cases s with
  | nil => simp [List.isPrefixOf] at h
  | cons c1 t1 =>
      cases t1 with
      | nil => simp [List.isPrefixOf] at h
      | cons c2 t2 =>
          cases t2 with
          | nil => simp [List.isPrefixOf] at h
          | cons c3 t3 =>
              simp only [List.isPrefixOf, Bool.and_eq_true, beq_iff_eq] at h
              obtain ⟨h1, h2, h3, _⟩ := h
              subst h1; subst h2; subst h3
              exact ⟨t3, rfl⟩

theorem dash3NotPrefixNl {b : Str} :
    (['-', '-', '-'] : Str).isPrefixOf ('\n' :: b) = false := by
  simp [List.isPrefixOf]

theorem lastNewlineIdxLe {w : Str} {j : Nat}
    (h : lastNewlineIdx w = some j) : j ≤ w.length := by
  unfold lastNewlineIdx at h
  rcases hidx : w.reverse.findIdx? (fun c => c = '\n') with _ | k
  · rw [hidx] at h; cases h
  · rw [hidx] at h
    injection h with h
    omega

theorem termMatchLen_bounds {s : Str} {n : Nat}
    (h : termMatchLen s = some n) : 3 ≤ n ∧ n ≤ s.length := by
  unfold termMatchLen at h
  split at h
  · rename_i hpre
    obtain ⟨rest, rfl⟩ := isPrefixOfDash3 hpre
    simp only [List.drop_succ_cons, List.drop_zero] at h
    split at h
    · injection h with h
      have := takeWhileLenLe (p := pySpace) (l := rest)
      simp only [List.length_cons]
      omega
    · split at h
      · rename_i j hj
        injection h with h
        have hjle : j ≤ (rest.takeWhile pySpace).length := lastNewlineIdxLe hj
        have := takeWhileLenLe (p := pySpace) (l := rest)
        simp only [List.length_cons]
        omega
      · cases h
  · cases h

theorem subTermGoFuel {rep : Str} : ∀ (f1 f2 : Nat) (s : Str),
    s.length ≤ f1 → s.length ≤ f2 →
    subTermGo rep f1 s = subTermGo rep f2 s := by
  intro f1
  induction f1 with
  | zero =>
      intro f2 s h1 _
      have : s = [] := by
        cases s
        · rfl
        · simp at h1
      subst this
      cases f2 <;> rfl
  | succ f ih =>
      intro f2 s h1 h2
      cases s with
      | nil => cases f2 <;> rfl
      | cons c rest =>
          cases f2 with
          | zero => simp at h2
          | succ g =>
              rw [subTermGo, subTermGo]
              cases hm : termMatchLen (c :: rest) with
              | some n =>
                  have hb := termMatchLen_bounds hm
                  show rep ++ subTermGo rep f (List.drop n (c :: rest)) =
                    rep ++ subTermGo rep g (List.drop n (c :: rest))
                  congr 1
                  apply ih
                  · rw [List.length_drop]
                    simp only [List.length_cons] at h1 ⊢
                    omega
                  · rw [List.length_drop]
                    simp only [List.length_cons] at h2 ⊢
                    omega
              | none =>
                  show c :: subTermGo rep f rest = c :: subTermGo rep g rest
                  congr 1
                  apply ih
                  · simp only [List.length_cons] at h1
                    omega
                  · simp only [List.length_cons] at h2
                    omega

theorem subLiteralGoFuel {pat rep : Str} (hpat : pat ≠ []) :
    ∀ (f1 f2 : Nat) (s : Str), s.length ≤ f1 → s.length ≤ f2 →
    subLiteralGo pat rep f1 s = subLiteralGo pat rep f2 s := by
  have hlen : 1 ≤ pat.length := by
    cases pat
    · exact absurd rfl hpat
    · simp
  intro f1
  induction f1 with
  | zero =>
      intro f2 s h1 _
      have : s = [] := by
        cases s
        · rfl
        · simp at h1
      subst this
      cases f2 <;> rfl
  | succ f ih =>
      intro f2 s h1 h2
      cases s with
      | nil => cases f2 <;> rfl
      | cons c rest =>
          cases f2 with
          | zero => simp at h2
          | succ g =>
              rw [subLiteralGo, subLiteralGo]
              by_cases hp : pat.isPrefixOf (c :: rest) = true
              · rw [if_pos hp, if_pos hp]
                congr 1
                apply ih
                · rw [List.length_drop]
                  simp only [List.length_cons] at h1 ⊢
                  omega
                · rw [List.length_drop]
                  simp only [List.length_cons] at h2 ⊢
                  omega
              · rw [if_neg hp, if_neg hp]
                congr 1
                apply ih
                · simp only [List.length_cons] at h1
                  omega
                · simp only [List.length_cons] at h2
                  omega

theorem takeWhileConsPos {p : Char → Bool} {c : Char} {l : Str}
    (h : p c = true) : (c :: l).takeWhile p = c :: l.takeWhile p := by
  simp [List.takeWhile, h]

theorem takeWhileAll {p : Char → Bool} {l : Str}
    (h : ∀ x ∈ l, p x = true) : l.takeWhile p = l := by
  have h2 := takeWhileAppend (p := p) (a := l) (b := ([] : Str)) h
  simpa using h2

theorem dropWhileAll {p : Char → Bool} {l : Str}
    (h : ∀ x ∈ l, p x = true) : l.dropWhile p = [] := by
  have h2 := dropWhileAppend (p := p) (a := l) (b := ([] : Str)) h
  simpa using h2

theorem prefixLenLe {p : Str} : ∀ {x : Str}, p.isPrefixOf x = true →
    p.length ≤ x.length := by
  induction p with
  | nil => intro x _; simp
  | cons a p2 ih =>
      intro x h
      cases x with
      | nil => simp [List.isPrefixOf] at h
      | cons b x2 =>
          simp only [List.isPrefixOf, Bool.and_eq_true] at h
          have := ih h.2
          simp only [List.length_cons]
          omega

theorem isPrefixOfExtend {p : Str} : ∀ {x : Str} (y : Str),
    p.isPrefixOf x = true → p.isPrefixOf (x ++ y) = true := by
  induction p with
  | nil => intro x y _; cases x ++ y <;> rfl
  | cons a p2 ih =>
      intro x y h
      cases x with
      | nil => simp [List.isPrefixOf] at h
      | cons b x2 =>
          simp only [List.isPrefixOf, Bool.and_eq_true] at h
          simp only [List.cons_append, List.isPrefixOf, Bool.and_eq_true]
          exact ⟨h.1, ih y h.2⟩

theorem prefixWithinLen {p : Str} : ∀ {x y : Str}, p.isPrefixOf (x ++ y) = true →
    p.length ≤ x.length → p.isPrefixOf x = true := by
  induction p with
  | nil => intro x y _ _; cases x <;> rfl
  | cons a p2 ih =>
      intro x y h hlen
      cases x with
      | nil => simp at hlen
      | cons b x2 =>
          simp only [List.cons_append, List.isPrefixOf, Bool.and_eq_true] at h
          simp only [List.length_cons] at hlen
          simp only [List.isPrefixOf, Bool.and_eq_true]
          exact ⟨h.1, ih h.2 (by omega)⟩

theorem suffixLenLe {a b : Str} (h : a.isSuffixOf b = true) :
    a.length ≤ b.length := by
  simp only [List.isSuffixOf] at h
  have := prefixLenLe h
  simpa using this

theorem isSuffixOfCons {a b : Str} (c : Char) (h : a.isSuffixOf b = true) :
    a.isSuffixOf (c :: b) = true := by
  simp only [List.isSuffixOf] at h ⊢
  rw [show ((c :: b : Str)).reverse = b.reverse ++ [c] from by simp]
  exact isPrefixOfExtend [c] h

theorem termMatchNlNone {r : Str} : termMatchLen ('\n' :: r) = none := by
  unfold termMatchLen
  rw [if_neg (by simp [dash3NotPrefixNl])]

theorem termMatchEvalLast {s1 : Str} (hs1 : ∀ x ∈ s1, pySpace x = true) :
    termMatchLen ('-' :: '-' :: '-' :: s1) = some (3 + s1.length) := by
  unfold termMatchLen
  rw [if_pos (by simp [List.isPrefixOf])]
  simp only [List.drop_succ_cons, List.drop_zero]
  rw [takeWhileAll hs1, dropWhileAll hs1, if_pos rfl]

theorem termMatchEvalMid {s1 r : Str} (hs1 : ∀ x ∈ s1, pySpace x = true)
    (hs1nl : '\n' ∉ s1) (hr1 : r.dropWhile pySpace ≠ [])
    (hr2 : '\n' ∉ r.takeWhile pySpace) :
    termMatchLen ('-' :: '-' :: '-' :: (s1 ++ '\n' :: r)) =
      some (3 + s1.length) := by
  unfold termMatchLen
  rw [if_pos (by simp [List.isPrefixOf])]
  simp only [List.drop_succ_cons, List.drop_zero]
  have hw : (s1 ++ '\n' :: r).takeWhile pySpace =
      s1 ++ '\n' :: r.takeWhile pySpace := by
    rw [takeWhileAppend hs1, takeWhileConsPos (by decide)]
  have hafter : (s1 ++ '\n' :: r).dropWhile pySpace = r.dropWhile pySpace := by
    rw [dropWhileAppend hs1, dropWhileConsPos (by decide)]
  rw [hw, hafter, if_neg hr1, lastNewlineIdxAppend hs1nl hr2]

theorem termMatchEvalNoMatch {s1 t : Str}
    (h1 : s1.dropWhile pySpace ≠ []) (hs1nl : '\n' ∉ s1) :
    termMatchLen ('-' :: '-' :: '-' :: (s1 ++ t)) = none := by
  unfold termMatchLen
  rw [if_pos (by simp [List.isPrefixOf])]
  simp only [List.drop_succ_cons, List.drop_zero]
  rw [takeWhileAppendStop h1, dropWhileAppendStop h1]
  rw [if_neg (by
    intro he
    rcases List.append_eq_nil.mp he with ⟨he1, _⟩
    exact h1 he1)]
  rw [lastNewlineIdxNone (fun hm => hs1nl (takeWhileSubset hm))]

theorem pyRstripDashWs {s1 : Str} (hs1 : ∀ x ∈ s1, pySpace x = true) :
    pyRstrip ('-' :: '-' :: '-' :: s1) = ['-', '-', '-'] := by
  have h := pyRstripAppendWs (u := ['-', '-', '-']) hs1
  simp only [List.cons_append, List.nil_append] at h
  rw [h]
  decide

theorem isTermLineDashWs {s1 : Str} (hs1 : ∀ x ∈ s1, pySpace x = true) :
    isTermLine ('-' :: '-' :: '-' :: s1) = true := by
  unfold isTermLine
  rw [pyRstripDashWs hs1]
  decide

theorem lineTermSubDashWs (rep : Str) {s1 : Str}
    (hs1 : ∀ x ∈ s1, pySpace x = true) :
    lineTermSub rep ('-' :: '-' :: '-' :: s1) = rep := by
  unfold lineTermSub
  rw [if_pos (isTermLineDashWs hs1), pyRstripDashWs hs1]
  rfl

theorem isTermLineNeNil {l : Str} (h : isTermLine l = true) :
    pyRstrip l ≠ [] := by
  intro he
  unfold isTermLine at h
  rw [he] at h
  simp [List.isSuffixOf, List.isPrefixOf] at h

theorem isTermLineCons {c : Char} {l2 : Str} (h : isTermLine l2 = true) :
    isTermLine (c :: l2) = true ∧ pyRstrip (c :: l2) = c :: pyRstrip l2 := by
  have hne := isTermLineNeNil h
  have hrev : l2.reverse.dropWhile pySpace ≠ [] := by
    intro he
    apply hne
    unfold pyRstrip
    rw [he]
    rfl
  have hcons := pyRstripCons (c := c) hrev
  refine ⟨?_, hcons⟩
  unfold isTermLine at h ⊢
  rw [hcons]
  exact isSuffixOfCons c h

theorem isTermLineRstripLen {l : Str} (h : isTermLine l = true) :
    3 ≤ (pyRstrip l).length := by
  unfold isTermLine at h
  have := suffixLenLe h
  simpa using this

theorem termConsShape {c : Char} {l2 : Str} (hc : isTermLine (c :: l2) = true)
    (h2 : isTermLine l2 = false) :
    c = '-' ∧ ∃ s1, l2 = '-' :: '-' :: s1 ∧ ∀ x ∈ s1, pySpace x = true := by
  by_cases hall : ∀ x ∈ l2, pySpace x = true
  · exfalso
    have hx : pyRstrip (c :: l2) = pyRstrip [c] :=
      pyRstripAppendWs (u := [c]) hall
    have hlen : (pyRstrip [c] : Str).length ≤ 1 := by
      unfold pyRstrip
      cases hpc : pySpace c
      · simp [List.dropWhile, hpc]
      · simp [List.dropWhile, hpc]
    unfold isTermLine at hc
    rw [hx] at hc
    have := suffixLenLe hc
    simp at this
    omega
  · push_neg at hall
    obtain ⟨x, hx, hpx⟩ := hall
    have hrev : l2.reverse.dropWhile pySpace ≠ [] :=
      dropWhileNeNil_iff.mpr ⟨x, List.mem_reverse.mpr hx, by simpa using hpx⟩
    have hcons := pyRstripCons (c := c) hrev
    unfold isTermLine at hc
    rw [hcons] at hc
    simp only [List.isSuffixOf] at hc
    rw [show ((c :: pyRstrip l2 : Str)).reverse = (pyRstrip l2).reverse ++ [c]
      from by simp] at hc
    by_cases hlen : 3 ≤ (pyRstrip l2).length
    · exfalso
      have hwithin : (['-', '-', '-'] : Str).reverse.isPrefixOf
          (pyRstrip l2).reverse = true := by
        apply prefixWithinLen hc
        simpa using hlen
      have : isTermLine l2 = true := by
        unfold isTermLine
        simpa [List.isSuffixOf] using hwithin
      rw [this] at h2
      cases h2
    · -- the reversed prefix has length 3, the target length ≤ 3:
      -- equality forces c = '-' and pyRstrip l2 = ['-', '-']
      have hle := prefixLenLe hc
      have hlen2 : (pyRstrip l2).length = 2 := by
        simp only [List.length_append, List.length_reverse, List.length_cons,
          List.length_nil, List.reverse_cons] at hle
        omega
      obtain ⟨r1, r2, hr⟩ : ∃ r1 r2, pyRstrip l2 = [r1, r2] := by
        cases hR : pyRstrip l2 with
        | nil => rw [hR] at hlen2; simp at hlen2
        | cons a t =>
            cases t with
            | nil => rw [hR] at hlen2; simp at hlen2
            | cons b t2 =>
                cases t2 with
                | nil => exact ⟨a, b, rfl⟩
                | cons d t3 => rw [hR] at hlen2; simp at hlen2
      rw [hr] at hcons hc
      simp only [List.reverse_cons, List.reverse_nil, List.nil_append,
        List.cons_append, List.isPrefixOf, Bool.and_eq_true, beq_iff_eq] at hc
      obtain ⟨he1, he2, he3, _⟩ := hc
      subst he1; subst he2; subst he3
      obtain ⟨w, hw, hwall⟩ := pyRstrip_decomp l2
      rw [hr] at hw
      exact ⟨rfl, w, by simpa using hw, hwall⟩

theorem termMatchSomeShape {l t : Str} {n : Nat} (hnl : '\n' ∉ l)
    (htail : t = [] ∨ ∃ r, t = '\n' :: r)
    (hm : termMatchLen (l ++ t) = some n) :
    ∃ s1, l = '-' :: '-' :: '-' :: s1 ∧ (∀ x ∈ s1, pySpace x = true) := by
  have hpre : (['-', '-', '-'] : Str).isPrefixOf (l ++ t) = true := by
    unfold termMatchLen at hm
    split at hm
    · rename_i h; exact h
    · cases hm
  obtain ⟨rest0, heq⟩ := isPrefixOfDash3 hpre
  obtain ⟨s1, rfl⟩ : ∃ s1, l = '-' :: '-' :: '-' :: s1 := by
    cases l with
    | nil =>
        exfalso
        simp only [List.nil_append] at heq
        rcases htail with rfl | ⟨r, rfl⟩
        · cases heq
        · injection heq with h1 _
          exact absurd h1 (by decide)
    | cons c1 l1 =>
        cases l1 with
        | nil =>
            exfalso
            simp only [List.cons_append, List.nil_append] at heq
            rcases htail with rfl | ⟨r, rfl⟩
            · injection heq with _ h2
              cases h2
            · injection heq with _ h2
              injection h2 with h3 _
              exact absurd h3 (by decide)
        | cons c2 l2 =>
            cases l2 with
            | nil =>
                exfalso
                simp only [List.cons_append, List.nil_append] at heq
                rcases htail with rfl | ⟨r, rfl⟩
                · injection heq with _ h2
                  injection h2 with _ h3
                  cases h3
                · injection heq with _ h2
                  injection h2 with _ h3
                  injection h3 with h4 _
                  exact absurd h4 (by decide)
            | cons c3 l3 =>
                simp only [List.cons_append] at heq
                injection heq with e1 h2
                injection h2 with e2 h3
                injection h3 with e3 _
                subst e1; subst e2; subst e3
                exact ⟨l3, rfl⟩
  by_cases hall : ∀ x ∈ s1, pySpace x = true
  · exact ⟨s1, rfl, hall⟩
  · exfalso
    push_neg at hall
    obtain ⟨x, hx, hpx⟩ := hall
    have h1 : s1.dropWhile pySpace ≠ [] :=
      dropWhileNeNil_iff.mpr ⟨x, hx, by simpa using hpx⟩
    have hs1nl : '\n' ∉ s1 := fun hmem => hnl (by simp [hmem])
    have hnone := termMatchEvalNoMatch (t := t) h1 hs1nl
    rw [show ('-' :: '-' :: '-' :: s1 : Str) ++ t =
      '-' :: '-' :: '-' :: (s1 ++ t) from by simp] at hm
    rw [hnone] at hm
    cases hm

theorem lineTermSubNil (rep : Str) : lineTermSub rep ([] : Str) = [] := by
  unfold lineTermSub
  rw [if_neg (by decide)]

/-- The heart of claim C6: on a newline-free line followed by a compatible
tail, the terminator scanner acts exactly as the claim's per-line rewrite
and then continues after the newline. -/
theorem subTermGoLine (rep : Str) : ∀ (fuel : Nat) (l tail res : Str),
    (l ++ tail).length ≤ fuel → '\n' ∉ l →
    ((tail = [] ∧ res = []) ∨
     (∃ r, tail = '\n' :: r ∧ res = '\n' :: subTermGo rep r.length r ∧
       (isTermLine l = true →
         r.dropWhile pySpace ≠ [] ∧ '\n' ∉ r.takeWhile pySpace))) →
    subTermGo rep fuel (l ++ tail) = lineTermSub rep l ++ res := by
  intro fuel
  induction fuel with
  | zero =>
      intro l tail res hlen hnl hspec
      have hl0 : l = [] := by
        cases l
        · rfl
        · simp at hlen
      subst hl0
      have ht0 : tail = [] := by
        cases tail
        · rfl
        · simp at hlen
      subst ht0
      rcases hspec with ⟨_, rfl⟩ | ⟨r, hr, _, _⟩
      · rw [lineTermSubNil]
        rfl
      · cases hr
  | succ f ih =>
      intro l tail res hlen hnl hspec
      cases l with
      | nil =>
          rcases hspec with ⟨rfl, rfl⟩ | ⟨r, rfl, hres, _⟩
          · rw [lineTermSubNil]
            rfl
          · subst hres
            rw [lineTermSubNil, List.nil_append, List.nil_append]
            rw [subTermGo, termMatchNlNone]
            show '\n' :: subTermGo rep f r = '\n' :: subTermGo rep r.length r
            congr 1
            apply subTermGoFuel
            · simp only [List.nil_append, List.length_cons] at hlen
              omega
            · exact Nat.le_refl _
      | cons c l2 =>
          show subTermGo rep (f + 1) (c :: (l2 ++ tail)) =
            lineTermSub rep (c :: l2) ++ res
          cases hm : termMatchLen (c :: (l2 ++ tail)) with
          | some n =>
              have htail2 : tail = [] ∨ ∃ r, tail = '\n' :: r := by
                rcases hspec with ⟨rfl, _⟩ | ⟨r, rfl, _, _⟩
                · exact Or.inl rfl
                · exact Or.inr ⟨r, rfl⟩
              obtain ⟨s1, hshape, hall⟩ :=
                termMatchSomeShape (l := c :: l2) (t := tail) hnl htail2 hm
              injection hshape with e1 e2
              subst e1
              subst e2
              have hs1nl : '\n' ∉ s1 := fun hmem => hnl (by simp [hmem])
              rcases hspec with ⟨rfl, rfl⟩ | ⟨r, rfl, hres, hcond⟩
              · rw [lineTermSubDashWs rep hall]
                have hm2 : termMatchLen ('-' :: ('-' :: '-' :: s1 ++ ([] : Str))) =
                    some (3 + s1.length) := by
                  have h := termMatchEvalLast hall
                  simpa using h
                rw [subTermGo, hm2]
                show rep ++ subTermGo rep f
                    (List.drop (3 + s1.length) ('-' :: ('-' :: '-' :: s1 ++ ([] : Str)))) =
                  rep ++ []
                congr 1
                rw [List.drop_eq_nil_of_le (by
                  simp only [List.length_cons, List.length_append, List.length_nil]
                  omega)]
                cases f <;> rfl
              · subst hres
                have hterm : isTermLine ('-' :: '-' :: '-' :: s1) = true :=
                  isTermLineDashWs hall
                obtain ⟨hr1, hr2⟩ := hcond hterm
                rw [lineTermSubDashWs rep hall]
                have hm2 : termMatchLen ('-' :: ('-' :: '-' :: s1 ++ '\n' :: r)) =
                    some (3 + s1.length) := by
                  have h := termMatchEvalMid hall hs1nl hr1 hr2
                  simpa using h
                rw [subTermGo, hm2]
                show rep ++ subTermGo rep f
                    (List.drop (3 + s1.length) ('-' :: ('-' :: '-' :: s1 ++ '\n' :: r))) =
                  rep ++ '\n' :: subTermGo rep r.length r
                congr 1
                have hdrop : List.drop (3 + s1.length)
                    ('-' :: ('-' :: '-' :: s1 ++ '\n' :: r) : Str) = '\n' :: r := by
                  rw [show ('-' :: ('-' :: '-' :: s1 ++ '\n' :: r) : Str) =
                    ('-' :: '-' :: '-' :: s1) ++ '\n' :: r from by simp]
                  rw [show 3 + s1.length = ('-' :: '-' :: '-' :: s1 : Str).length
                    from by simp only [List.length_cons]; omega]
                  exact List.drop_left _ _
                rw [hdrop]
                have hfuel : ('\n' :: r : Str).length ≤ f := by
                  simp only [List.cons_append, List.length_cons,
                    List.length_append] at hlen ⊢
                  omega
                rw [subTermGoFuel f (r.length + 1) ('\n' :: r) hfuel (by simp)]
                rw [subTermGo, termMatchNlNone]
          | none =>
              rw [subTermGo, hm]
              show c :: subTermGo rep f (l2 ++ tail) =
                lineTermSub rep (c :: l2) ++ res
              have hnl2 : '\n' ∉ l2 := fun hmem => hnl (List.mem_cons_of_mem _ hmem)
              have hspec2 : (tail = [] ∧ res = []) ∨
                  (∃ r, tail = '\n' :: r ∧ res = '\n' :: subTermGo rep r.length r ∧
                    (isTermLine l2 = true →
                      r.dropWhile pySpace ≠ [] ∧ '\n' ∉ r.takeWhile pySpace)) := by
                rcases hspec with ⟨h1, h2⟩ | ⟨r, h1, h2, h3⟩
                · exact Or.inl ⟨h1, h2⟩
                · exact Or.inr ⟨r, h1, h2, fun ht => h3 (isTermLineCons ht).1⟩
              rw [ih l2 tail res (by simp at hlen ⊢; omega) hnl2 hspec2]
              rw [show (c :: (lineTermSub rep l2 ++ res) : Str) =
                (c :: lineTermSub rep l2) ++ res from rfl]
              congr 1
              by_cases ht2 : isTermLine l2 = true
              · obtain ⟨htc, hrs⟩ := isTermLineCons (c := c) ht2
                unfold lineTermSub
                rw [if_pos ht2, if_pos htc, hrs]
                have h3 := isTermLineRstripLen ht2
                rw [show (c :: pyRstrip l2 : Str).length = (pyRstrip l2).length + 1
                  from by simp]
                rw [show (pyRstrip l2).length + 1 - 3 =
                  ((pyRstrip l2).length - 3) + 1 from by omega]
                rw [List.take_succ_cons]
                simp
              · have ht2f : isTermLine l2 = false := by
                  cases h : isTermLine l2
                  · rfl
                  · exact absurd h ht2
                have htc : isTermLine (c :: l2) = false := by
                  by_contra hcon
                  have htrue : isTermLine (c :: l2) = true := by
                    cases h : isTermLine (c :: l2)
                    · exact absurd h hcon
                    · rfl
                  obtain ⟨e1, s1, e2, hall⟩ := termConsShape htrue ht2f
                  subst e1
                  subst e2
                  have hs1nl : '\n' ∉ s1 := fun hmem => hnl (by simp [hmem])
                  rcases hspec with ⟨rfl, _⟩ | ⟨r, rfl, _, h3⟩
                  · have hev := termMatchEvalLast hall
                    rw [show ('-' :: ('-' :: '-' :: s1 ++ ([] : Str)) : Str) =
                      '-' :: '-' :: '-' :: s1 from by simp] at hm
                    rw [hev] at hm
                    cases hm
                  · obtain ⟨hr1, hr2⟩ := h3 htrue
                    have hev := termMatchEvalMid hall hs1nl hr1 hr2
                    rw [show ('-' :: ('-' :: '-' :: s1 ++ '\n' :: r) : Str) =
                      '-' :: '-' :: '-' :: (s1 ++ '\n' :: r) from by simp] at hm
                    rw [hev] at hm
                    cases hm
                unfold lineTermSub
                rw [if_neg (by simp [ht2f]), if_neg (by simp [htc])]

theorem subLiteralNil {pat rep : Str} : subLiteral pat rep [] = [] := rfl

theorem subLiteralConsNo {pat rep : Str} {c : Char} {rest : Str}
    (h : pat.isPrefixOf (c :: rest) = false) :
    subLiteral pat rep (c :: rest) = c :: subLiteral pat rep rest := by
  unfold subLiteral
  show subLiteralGo pat rep (rest.length + 1) (c :: rest) = _
  rw [subLiteralGo, if_neg (by simp [h])]

theorem subLiteralConsYes {pat rep : Str} {c : Char} {rest : Str}
    (hpat : pat ≠ []) (h : pat.isPrefixOf (c :: rest) = true) :
    subLiteral pat rep (c :: rest) =
      rep ++ subLiteral pat rep (List.drop pat.length (c :: rest)) := by
  have hlen : 1 ≤ pat.length := by
    cases pat
    · exact absurd rfl hpat
    · simp
  unfold subLiteral
  show subLiteralGo pat rep (rest.length + 1) (c :: rest) = _
  rw [subLiteralGo, if_pos h]
  congr 1
  apply subLiteralGoFuel hpat
  · rw [List.length_drop]
    simp only [List.length_cons]
    omega
  · exact Nat.le_refl _

theorem patNotPrefixNl {pat : Str} {b : Str} (hpat : pat ≠ [])
    (hpnl : '\n' ∉ pat) : pat.isPrefixOf ('\n' :: b) = false := by
  cases pat with
  | nil => exact absurd rfl hpat
  | cons p0 pt =>
      have hp0 : p0 ≠ '\n' := fun he => hpnl (he ▸ List.mem_cons_self _ _)
      simp [List.isPrefixOf, hp0]

theorem prefixNoNlLen {pat : Str} (hpnl : '\n' ∉ pat) : ∀ {x y : Str},
    pat.isPrefixOf (x ++ '\n' :: y) = true → pat.length ≤ x.length := by
  induction pat with
  | nil => intro x y _; simp
  | cons p0 pt ih =>
      intro x y h
      cases x with
      | nil =>
          simp only [List.nil_append, List.isPrefixOf, Bool.and_eq_true,
            beq_iff_eq] at h
          exact absurd h.1 (fun he => hpnl (he ▸ List.mem_cons_self _ _))
      | cons x0 xt =>
          simp only [List.cons_append, List.isPrefixOf, Bool.and_eq_true] at h
          have := ih (fun hm => hpnl (List.mem_cons_of_mem _ hm)) h.2
          simp only [List.length_cons]
          omega

theorem dropAppendLe {n : Nat} : ∀ {x y : Str}, n ≤ x.length →
    (x ++ y).drop n = x.drop n ++ y := by
  intro x y h
  rw [List.drop_append_of_le_length h]

theorem subLiteralNlFree {pat rep : Str} (hpat : pat ≠ []) (hrep : '\n' ∉ rep) :
    ∀ (n : Nat) (s : Str), s.length ≤ n → '\n' ∉ s →
    '\n' ∉ subLiteral pat rep s := by
  have hlen : 1 ≤ pat.length := by
    cases pat
    · exact absurd rfl hpat
    · simp
  intro n
  induction n with
  | zero =>
      intro s hl hs
      have : s = [] := by
        cases s
        · rfl
        · simp at hl
      subst this
      rw [subLiteralNil]
      simp
  | succ m ih =>
      intro s hl hs
      cases s with
      | nil => rw [subLiteralNil]; simp
      | cons c rest =>
          by_cases hp : pat.isPrefixOf (c :: rest) = true
          · rw [subLiteralConsYes hpat hp]
            intro hmem
            rcases List.mem_append.mp hmem with hmem | hmem
            · exact hrep hmem
            · refine ih (List.drop pat.length (c :: rest)) ?_ ?_ hmem
              · rw [List.length_drop]
                simp only [List.length_cons] at hl ⊢
                omega
              · intro hmem2
                exact hs (List.mem_of_mem_drop hmem2)
          · have hpf : pat.isPrefixOf (c :: rest) = false := by
              cases hq : pat.isPrefixOf (c :: rest)
              · rfl
              · exact absurd hq hp
            rw [subLiteralConsNo hpf]
            intro hmem
            rcases List.mem_cons.mp hmem with he | hmem2
            · exact hs (he ▸ List.mem_cons_self _ _)
            · refine ih rest ?_ (fun hm => hs (List.mem_cons_of_mem _ hm)) hmem2
              simp only [List.length_cons] at hl
              omega

theorem subLiteralSplit {pat rep : Str} (hpat : pat ≠ []) (hpnl : '\n' ∉ pat) :
    ∀ (n : Nat) (a b : Str), a.length ≤ n →
    subLiteral pat rep (a ++ '\n' :: b) =
      subLiteral pat rep a ++ '\n' :: subLiteral pat rep b := by
  have hlen : 1 ≤ pat.length := by
    cases pat
    · exact absurd rfl hpat
    · simp
  intro n
  induction n with
  | zero =>
      intro a b hl
      have : a = [] := by
        cases a
        · rfl
        · simp at hl
      subst this
      rw [List.nil_append, subLiteralNil, List.nil_append,
        subLiteralConsNo (patNotPrefixNl hpat hpnl)]
  | succ m ih =>
      intro a b hl
      cases a with
      | nil =>
          rw [List.nil_append, subLiteralNil, List.nil_append,
            subLiteralConsNo (patNotPrefixNl hpat hpnl)]
      | cons c a2 =>
          rw [List.cons_append]
          by_cases hp : pat.isPrefixOf (c :: (a2 ++ '\n' :: b)) = true
          · have hple : pat.length ≤ (c :: a2 : Str).length := by
              have := prefixNoNlLen hpnl (x := c :: a2) (y := b)
                (by simpa using hp)
              exact this
            have hpx : pat.isPrefixOf (c :: a2) = true := by
              apply prefixWithinLen (y := '\n' :: b) ?_ hple
              simpa using hp
            rw [subLiteralConsYes hpat (by simpa using hp),
              subLiteralConsYes hpat hpx]
            have hdrop : List.drop pat.length ((c :: a2) ++ '\n' :: b) =
                List.drop pat.length (c :: a2) ++ '\n' :: b :=
              dropAppendLe hple
            rw [show (c :: (a2 ++ '\n' :: b) : Str) = (c :: a2) ++ '\n' :: b
              from by simp, hdrop]
            rw [ih (List.drop pat.length (c :: a2)) b (by
              rw [List.length_drop]
              simp only [List.length_cons] at hl ⊢
              omega)]
            simp
          · have hpx : pat.isPrefixOf (c :: a2) = false := by
              cases hq : pat.isPrefixOf (c :: a2)
              · rfl
              · exfalso
                have := isPrefixOfExtend ('\n' :: b) hq
                rw [show ((c :: a2 : Str)) ++ '\n' :: b = c :: (a2 ++ '\n' :: b)
                  from by simp] at this
                exact hp this
            have hpf : pat.isPrefixOf (c :: (a2 ++ '\n' :: b)) = false := by
              cases hq : pat.isPrefixOf (c :: (a2 ++ '\n' :: b))
              · rfl
              · exact absurd hq hp
            rw [subLiteralConsNo hpf, subLiteralConsNo hpx]
            rw [ih a2 b (by simp only [List.length_cons] at hl; omega)]
            rfl

theorem subLiteralJoin {pat rep : Str} (hpat : pat ≠ []) (hpnl : '\n' ∉ pat) :
    ∀ (L : List Str), subLiteral pat rep (joinLines L) =
      joinLines (L.map (subLiteral pat rep)) := by
  intro L
  induction L with
  | nil => rfl
  | cons l ls ih =>
      cases ls with
      | nil => rfl
      | cons l2 rest =>
          show subLiteral pat rep (l ++ '\n' :: joinLines (l2 :: rest)) = _
          rw [subLiteralSplit hpat hpnl l.length l _ (Nat.le_refl _), ih]
          rfl

theorem allSpaceFalseDropWhile {l : Str} (h : allSpace l = false) :
    l.dropWhile pySpace ≠ [] := by
  rw [dropWhileNeNil_iff]
  unfold allSpace at h
  have h2 : ¬ ∀ x ∈ l, pySpace x = true := by
    rw [← List.all_eq_true]
    simp [h]
  push_neg at h2
  obtain ⟨x, hx, hpx⟩ := h2
  exact ⟨x, hx, by simpa using hpx⟩

theorem subTermLines (rep : Str) : ∀ (L : List Str),
    (∀ l ∈ L, '\n' ∉ l) → noSwallow L = true →
    subTerm rep (joinLines L) = joinLines (L.map (lineTermSub rep)) := by
  intro L
  induction L with
  | nil => intro _ _; rfl
  | cons l ls ih =>
      intro hnl hns
      cases ls with
      | nil =>
          show subTerm rep l = joinLines [lineTermSub rep l]
          unfold subTerm
          have h := subTermGoLine rep l.length l [] [] (by simp)
            (hnl l (List.mem_cons_self _ _)) (Or.inl ⟨rfl, rfl⟩)
          simpa using h
      | cons l2 rest =>
          have hns2 : (!(isTermLine l) || !(allSpace l2)) = true ∧
              noSwallow (l2 :: rest) = true := by
            rw [noSwallow] at hns
            simpa [Bool.and_eq_true] using hns
          have hcond : isTermLine l = true →
              (joinLines (l2 :: rest)).dropWhile pySpace ≠ [] ∧
              '\n' ∉ (joinLines (l2 :: rest)).takeWhile pySpace := by
            intro ht
            have hl2 : allSpace l2 = false := by
              have h1 := hns2.1
              rw [ht] at h1
              simpa using h1
            have hex := allSpaceFalseDropWhile hl2
            have hnl2 : '\n' ∉ l2 := hnl l2
              (List.mem_cons_of_mem _ (List.mem_cons_self _ _))
            cases rest with
            | nil =>
                refine ⟨hex, fun hm => hnl2 (takeWhileSubset hm)⟩
            | cons l3 rest2 =>
                have hform : joinLines (l2 :: l3 :: rest2) =
                    l2 ++ '\n' :: joinLines (l3 :: rest2) := rfl
                rw [hform, dropWhileAppendStop hex, takeWhileAppendStop hex]
                refine ⟨?_, fun hm => hnl2 (takeWhileSubset hm)⟩
                intro he
                rcases List.append_eq_nil.mp he with ⟨he1, _⟩
                exact hex he1
          show subTerm rep (l ++ '\n' :: joinLines (l2 :: rest)) = _
          unfold subTerm
          rw [subTermGoLine rep (l ++ '\n' :: joinLines (l2 :: rest)).length l
            ('\n' :: joinLines (l2 :: rest))
            ('\n' :: subTermGo rep (joinLines (l2 :: rest)).length
              (joinLines (l2 :: rest)))
            (Nat.le_refl _) (hnl l (List.mem_cons_self _ _))
            (Or.inr ⟨joinLines (l2 :: rest), rfl, rfl, hcond⟩)]
          have hih := ih (fun x hx => hnl x (List.mem_cons_of_mem _ hx)) hns2.2
          unfold subTerm at hih
          rw [hih]
          rfl

/-- C6 counterexample: on `"a ---\n\nb"` the greedy `---\s*$` match absorbs
the following whitespace-only line, so the output is not the line-by-line
rewrite the claim describes — the empty line (matching neither anchor) is
not returned unchanged. -/
theorem C6_counterexample :
    modify_text "AutoInstall".toList true
        (joinLines ["a ---".toList, [], "b".toList]) none true ≠
      joinLines (["a ---".toList, [], "b".toList].map
        (claimLineTransform (stampText "AutoInstall".toList none)
          (termReplacement true true))) := by
  decide

/-- C6 (amended): for every newline-free line sequence in which no
whitespace-only line directly follows a (stamped) terminator line, the
transform stamps every anchor occurrence and rewrites every line ending
(ignoring trailing whitespace) in `---`, inserting the data-source
directive (escaped separator iff `escapeSeparator`, `autoinstall` token
iff not prompt) before the terminator, leaving all other lines
unchanged. -/
theorem C6_boot_text_stamping (grubStamp : Str) (prompt : Bool)
    (um : Option Str) (esc : Bool) (L : List Str)
    (hstamp : '\n' ∉ stampText grubStamp um)
    (hL : ∀ l ∈ L, '\n' ∉ l)
    (hns : noSwallow (L.map (claimStampLine (stampText grubStamp um))) = true) :
    modify_text grubStamp prompt (joinLines L) um esc =
      joinLines (L.map (claimLineTransform (stampText grubStamp um)
        (termReplacement prompt esc))) := by
  have hanchor : (anchor : Str) ≠ [] := by decide
  have hanl : '\n' ∉ anchor := by decide
  have hrepnl : '\n' ∉ anchor ++ ' ' :: stampText grubStamp um := by
    intro hm
    rcases List.mem_append.mp hm with hm | hm
    · exact hanl hm
    · rcases List.mem_cons.mp hm with he | hm2
      · cases he
      · exact hstamp hm2
  show subTerm (termReplacement prompt esc)
      (subLiteral anchor (anchor ++ ' ' :: stampText grubStamp um)
        (joinLines L)) = _
  rw [subLiteralJoin hanchor hanl L]
  rw [subTermLines (termReplacement prompt esc)
    (L.map (subLiteral anchor (anchor ++ ' ' :: stampText grubStamp um)))
    ?_ hns]
  · rw [List.map_map]
    rfl
  · intro l hl
    rw [List.mem_map] at hl
    obtain ⟨l0, hl0, rfl⟩ := hl
    exact subLiteralNlFree hanchor hrepnl l0.length l0 (Nat.le_refl _)
      (hL l0 hl0)

/-- C6 witness: the amended statement at a concrete three-line menu with
the anchor on the first line and the terminator on the second. -/
theorem C6_boot_text_stamping_witness :
    modify_text "AutoInstall".toList false
        (joinLines ["menu Install Ubuntu Server".toList,
          "  linux vmlinuz ---".toList, "boot".toList]) none true =
      joinLines (["menu Install Ubuntu Server".toList,
          "  linux vmlinuz ---".toList, "boot".toList].map
        (claimLineTransform (stampText "AutoInstall".toList none)
          (termReplacement false true))) :=
  C6_boot_text_stamping "AutoInstall".toList false none true
    ["menu Install Ubuntu Server".toList, "  linux vmlinuz ---".toList,
      "boot".toList]
    (by decide) (by decide) (by decide)

end Isomodder
